import Mathlib

/-!
# Verification of the kubetest task scheduling and building core

This file shallowly embeds the scheduling, building and result-handling
core of the kubetest repository (Go) and proves the specification claims
about it.  Pure Go functions become Lean functions over explicit data;
Go slices become `List`, Go string maps become insertion-ordered
association lists (lookup returns the most recent binding, matching Go's
overwrite-on-insert), and fallible Go functions return `Except`.
-/

namespace Kubetest

/-! ## Common data model (corev1 / TestJob fragments used by the claims) -/

/-- Models `corev1.EnvVar` restricted to the literal `Name`/`Value` fields
used by the embedded code. -/
structure EnvVar where
  name : String
  value : String
deriving DecidableEq

/-- Models `corev1.VolumeMount` restricted to `Name` and `MountPath`. -/
structure VolumeMount where
  name : String
  mountPath : String
deriving DecidableEq

/-- Models the fragment of `corev1.Container` (as embedded in
`TestJobContainer`) that the verified code reads or writes. -/
structure Container where
  name : String := ""
  image : String := ""
  imagePullPolicy : String := ""
  command : List String := []
  args : List String := []
  env : List EnvVar := []
  workingDir : String := ""
  volumeMounts : List VolumeMount := []
deriving DecidableEq

/-! ## C1: TaskScheduler.Schedule key slicing (src/unnamed/part_000 lines 55-105) -/

/-- Embeds the key-slicing performed by `TaskScheduler.Schedule`
(part_000 lines 55-105): if `len(keys) <= maxContainers` a single task
carries all keys; otherwise `concurrent := len(keys) / maxContainers`
and the loop `for i := 0; i <= concurrent; i++` assigns
`keys[sum : sum+maxContainers]` (with `sum = i*maxContainers`) to task
`i`, and `keys[sum:]` to the last iteration.  The per-task builder call
is irrelevant to the slicing and is not modelled. -/
def scheduleKeySlices (keys : List String) (maxContainers : Nat) : List (List String) :=
  if keys.length ≤ maxContainers then [keys]
  else
    let concurrent := keys.length / maxContainers
    (List.range (concurrent + 1)).map fun i =>
      if i = concurrent then keys.drop (i * maxContainers)
      else (keys.drop (i * maxContainers)).take maxContainers

/-- C1: the claim fails on the code.  With keys `["A","B","C","D"]` and
`maxContainersPerPod = 2` (so `N = 4 > M = 2` and `M` divides `N`), the
scheduler emits `⌊N/M⌋ + 1 = 3` tasks, the last carrying an *empty* key
slice, instead of the `⌈N/M⌉ = 2` tasks with a strictly nonempty last
slice that the claim requires.  (The spec's own design note 9(b) flags
this integer-division slip in the original scheduler.) -/
theorem scheduleKeySlices_empty_tail_bug :
    scheduleKeySlices ["A", "B", "C", "D"] 2 = [["A", "B"], ["C", "D"], []] ∧
    (scheduleKeySlices ["A", "B", "C", "D"] 2).length = 3 ∧
    (3 : Nat) ≠ (4 + 2 - 1) / 2 ∧
    (scheduleKeySlices ["A", "B", "C", "D"] 2).getLast? = some [] := by
  refine ⟨by decide, by decide, by decide, by decide⟩

/-! ## C2: SubTaskScheduler.Schedule (src/unnamed/part_000 lines 189-218) -/

/-- Embeds `SubTaskScheduler.getConcurrentNum` (part_000 lines 209-218). -/
def getConcurrentNum (maxConcurrentNumPerPod : Int) (taskNum : Int) : Int :=
  if maxConcurrentNumPerPod ≤ 0 then taskNum
  else if maxConcurrentNumPerPod > taskNum then taskNum
  else maxConcurrentNumPerPod

/-- The grouping loop of `SubTaskScheduler.Schedule` (part_000 lines
195-202): `for i := 0; i < taskNum; i += concurrent` emits
`tasks[i : min (i+concurrent) taskNum]`.  Written as structural
recursion: each step takes `c` elements and recurses on the rest (the
`0` case is unreachable in `subTaskSchedule`, which only enters the
loop when the concurrency is positive). -/
def chunk {α : Type} : Nat → List α → List (List α)
  | _, [] => []
  | 0, x :: xs => [x :: xs]
  | c + 1, x :: xs => (x :: xs).take (c + 1) :: chunk (c + 1) ((x :: xs).drop (c + 1))
termination_by _ l => l.length
decreasing_by
  simp only [List.length_drop, List.length_cons]
  omega

/-- Embeds `SubTaskScheduler.Schedule` (part_000 lines 189-207): compute
the concurrency via `getConcurrentNum`; if it is positive, group the
sub-tasks in slices of that size, otherwise emit one group holding the
whole list.  Sub-tasks are opaque to the scheduler, hence the type
parameter. -/
def subTaskSchedule {α : Type} (maxConcurrentNumPerPod : Int) (tasks : List α) :
    List (List α) :=
  let concurrentNum := getConcurrentNum maxConcurrentNumPerPod (tasks.length : Int)
  if 0 < concurrentNum then chunk concurrentNum.toNat tasks else [tasks]

theorem chunk_flatten {α : Type} (c : Nat) (l : List α) : (chunk (c + 1) l).flatten = l := by
  match l with
  | [] => simp [chunk]
  | x :: xs =>
    rw [chunk, List.flatten_cons, chunk_flatten c ((x :: xs).drop (c + 1))]
    exact List.take_append_drop _ _
termination_by l.length
decreasing_by
  simp only [List.length_drop, List.length_cons]
  omega

theorem chunk_of_length_le {α : Type} (c : Nat) (l : List α) (hne : l ≠ [])
    (h : l.length ≤ c + 1) : chunk (c + 1) l = [l] := by
  match l with
  | [] => exact absurd rfl hne
  | x :: xs =>
    rw [chunk, List.take_of_length_le h, List.drop_of_length_le h, chunk]

theorem chunk_ne_nil {α : Type} (c : Nat) (l : List α) (hne : l ≠ []) :
    chunk (c + 1) l ≠ [] := by
  match l with
  | [] => exact absurd rfl hne
  | x :: xs => rw [chunk]; exact List.cons_ne_nil _ _

theorem chunk_length {α : Type} (c : Nat) (l : List α) :
    (chunk (c + 1) l).length = (l.length + c) / (c + 1) := by
  match l with
  | [] => simp [chunk, Nat.div_eq_of_lt (show c < c + 1 by omega)]
  | x :: xs =>
    rw [chunk, List.length_cons, chunk_length c ((x :: xs).drop (c + 1))]
    simp only [List.length_drop, List.length_cons]
    rcases le_or_lt (xs.length + 1) (c + 1) with hle | hlt
    · have h1 : xs.length + 1 - (c + 1) + c = c := by omega
      have h2 : (xs.length + 1 + c) / (c + 1) = 1 := by
        apply Nat.div_eq_of_lt_le
        · omega
        · omega
      rw [h1, h2, Nat.div_eq_of_lt (by omega)]
    · have h1 : xs.length + 1 - (c + 1) + c = xs.length := by omega
      have h2 : xs.length + 1 + c = xs.length + (c + 1) := by omega
      rw [h1, h2, Nat.add_div_right _ (Nat.succ_pos c)]
termination_by l.length
decreasing_by
  simp only [List.length_drop, List.length_cons]
  omega

theorem chunk_length_add_one {α : Type} (c : Nat) (l : List α) :
    (chunk (c + 1) l).length * (c + 1) < l.length + (c + 1) := by
  have := chunk_length c l
  have h2 := Nat.div_mul_le_self (l.length + c) (c + 1)
  calc (chunk (c + 1) l).length * (c + 1) = (l.length + c) / (c + 1) * (c + 1) := by rw [this]
    _ ≤ l.length + c := h2
    _ < l.length + (c + 1) := by omega

theorem chunk_mem_spec {α : Type} (c : Nat) (l : List α) :
    ∀ g ∈ chunk (c + 1) l, g.length ≤ c + 1 ∧ g ≠ [] := by
  match l with
  | [] => intro g hg; simp [chunk] at hg
  | x :: xs =>
    intro g hg
    rw [chunk] at hg
    rcases List.mem_cons.mp hg with h | h
    · subst h
      constructor
      · rw [List.length_take]; omega
      · rw [List.take_cons (by omega)]
        exact List.cons_ne_nil _ _
    · exact chunk_mem_spec c ((x :: xs).drop (c + 1)) g h
termination_by l.length
decreasing_by
  simp only [List.length_drop, List.length_cons]
  omega

theorem chunk_dropLast_spec {α : Type} (c : Nat) (l : List α) :
    ∀ g ∈ (chunk (c + 1) l).dropLast, g.length = c + 1 := by
  match l with
  | [] => intro g hg; simp [chunk] at hg
  | x :: xs =>
    intro g hg
    rw [chunk] at hg
    rcases eq_or_ne ((x :: xs).drop (c + 1)) [] with hnil | hne
    · rw [hnil] at hg
      simp [chunk] at hg
    · have hrec := chunk_ne_nil c ((x :: xs).drop (c + 1)) hne
      rcases hr : chunk (c + 1) ((x :: xs).drop (c + 1)) with _ | ⟨r, rs⟩
      · exact absurd hr hrec
      · rw [hr] at hg
        rw [List.dropLast_cons₂] at hg
        rcases List.mem_cons.mp hg with h | h
        · subst h
          rw [List.length_take]
          have : c + 1 < (x :: xs).length := by
            have := List.length_lt_of_drop_ne_nil hne
            omega
          omega
        · have := chunk_dropLast_spec c ((x :: xs).drop (c + 1))
          rw [hr] at this
          exact this g h
termination_by l.length
decreasing_by
  simp only [List.length_drop, List.length_cons]
  omega

/-- C2: `SubTaskScheduler.Schedule` emits exactly one group containing
all `N` sub-tasks when the concurrency cap `K ≤ 0` or `K ≥ N`;
otherwise it emits `⌈N/K⌉` groups in order whose concatenation equals
the input, each of size `K` except a possibly shorter (and nonempty)
last group. -/
theorem subTaskScheduler_schedule_spec {α : Type} (K : Int) (tasks : List α) :
    ((K ≤ 0 ∨ (tasks.length : Int) ≤ K) → subTaskSchedule K tasks = [tasks]) ∧
    (0 < K → K < (tasks.length : Int) →
      (subTaskSchedule K tasks).flatten = tasks ∧
      (subTaskSchedule K tasks).length = (tasks.length + K.toNat - 1) / K.toNat ∧
      (∀ g ∈ (subTaskSchedule K tasks).dropLast, g.length = K.toNat) ∧
      (∀ g ∈ subTaskSchedule K tasks, g.length ≤ K.toNat ∧ g ≠ [])) := by
  constructor
  · intro h
    rcases tasks with _ | ⟨x, xs⟩
    · have hcn : getConcurrentNum K (0 : Int) = 0 := by
        unfold getConcurrentNum
        split_ifs <;> omega
      simp [subTaskSchedule, hcn]
    · have hcn : getConcurrentNum K (((x :: xs).length : Int)) = ((x :: xs).length : Int) := by
        unfold getConcurrentNum
        rcases h with hK | hNK <;> split_ifs <;> omega
      have hpos : (0 : Int) < ((x :: xs).length : Int) := by
        simp only [List.length_cons]
        omega
      have htn : (((x :: xs).length : Int)).toNat = xs.length + 1 := by
        simp only [List.length_cons]
        omega
      simp only [subTaskSchedule, hcn, if_pos hpos, htn]
      exact chunk_of_length_le xs.length (x :: xs) (List.cons_ne_nil x xs) (by simp)
  · intro hK hKN
    have hcn : getConcurrentNum K ((tasks.length : Int)) = K := by
      unfold getConcurrentNum
      split_ifs <;> omega
    have hsched : subTaskSchedule K tasks = chunk K.toNat tasks := by
      simp only [subTaskSchedule, hcn, if_pos hK]
    rcases hc : K.toNat with _ | c
    · omega
    · rw [hsched, hc]
      have hlen : tasks.length + (c + 1) - 1 = tasks.length + c := by omega
      refine ⟨chunk_flatten c tasks, ?_, chunk_dropLast_spec c tasks, chunk_mem_spec c tasks⟩
      rw [hlen]
      exact chunk_length c tasks

/-- Witness for C2 at a concrete input: five sub-tasks, cap 2. -/
theorem subTaskScheduler_schedule_spec_witness :
    (subTaskSchedule 2 ([0, 1, 2, 3, 4] : List Nat)).flatten = [0, 1, 2, 3, 4] ∧
    (subTaskSchedule 2 ([0, 1, 2, 3, 4] : List Nat)).length = 3 ∧
    subTaskSchedule 7 ([0, 1, 2] : List Nat) = [[0, 1, 2]] := by
  have h := subTaskScheduler_schedule_spec (α := Nat) 2 [0, 1, 2, 3, 4]
  have h2 := (subTaskScheduler_schedule_spec (α := Nat) 7 [0, 1, 2]).1 (Or.inr (by decide))
  have h3 := h.2 (by decide) (by decide)
  exact ⟨h3.1, by rw [h3.2.1]; decide, h2⟩

/-! ## C3: TaskScheduler.dynamicKeys (src/unnamed/part_000 lines 123-177)

`dynamicKeys` builds and runs a key-generating task and then post-processes
the output of its single main sub-task result.  The task execution is
abstracted: the embedding is parameterized by the list of `Out` values of
the reported main sub-task results.  The compiled regex filter
(`regexp.Regexp.MatchString`) is abstracted as an optional Boolean
predicate (`none` models `sourceFilter` returning `nil` for an empty
filter string).  `strings.Split` is modelled by `String.splitOn` (same
greedy, non-overlapping semantics for the nonempty separators produced by
`sourceDelim`) and `strings.TrimSpace` by `String.trim`. -/

/-- Embeds `TaskScheduler.sourceDelim` (part_000 lines 169-177). -/
def sourceDelim (delim : String) : String :=
  if delim = "" then "\n" else delim

/-- Models Go's `strings.Split` for a nonempty separator: scan left to
right, splitting at each (non-overlapping) occurrence of `sep`.  The
`fuel` argument bounds the recursion by the input length so the
definition is structurally recursive (and hence kernel-evaluable); an
empty separator never matches and yields the whole input as a single
element (`sourceDelim` never produces an empty separator). -/
def splitOnAux (sep : List Char) : Nat → List Char → List (List Char)
  | _, [] => [[]]
  | 0, s => [s]
  | fuel + 1, c :: rest =>
    if !sep.isEmpty && sep.isPrefixOf (c :: rest) then
      [] :: splitOnAux sep fuel ((c :: rest).drop sep.length)
    else
      match splitOnAux sep fuel rest with
      | [] => [[c]]
      | head :: tail => (c :: head) :: tail

/-- `strings.Split(s, sep)` over `String`. -/
def goSplit (sep s : String) : List String :=
  (splitOnAux sep.toList s.toList.length s.toList).map String.mk

/-- Models Go's `strings.TrimSpace`: drop leading and trailing
whitespace characters (`Char.isWhitespace` covers the ASCII whitespace
that the tests exercise; Go additionally trims rarer Unicode spaces). -/
def goTrimSpace (s : String) : String :=
  String.mk (((s.toList.dropWhile Char.isWhitespace).reverse.dropWhile
    Char.isWhitespace).reverse)

/-- The key-collection loop of `TaskScheduler.dynamicKeys` (part_000
lines 144-153): skip keys whose trimmed value is empty, skip keys
rejected by a non-nil filter, keep the rest in order. -/
def dynamicKeysLoop (filter : Option (String → Bool)) : List String → List String
  | [] => []
  | key :: rest =>
    if goTrimSpace key = "" then dynamicKeysLoop filter rest
    else if (match filter with | some f => !(f key) | none => false) then
      dynamicKeysLoop filter rest
    else key :: dynamicKeysLoop filter rest

/-- Embeds `TaskScheduler.dynamicKeys` (part_000 lines 123-160) given
the `Out` values of the main sub-task results reported by the key task. -/
def dynamicKeys (mainOuts : List String) (delim : String)
    (filter : Option (String → Bool)) : Except String (List String) :=
  match mainOuts with
  | [] => Except.error "kubetest: failed to find main task results for dynamic keys"
  | [out] => Except.ok (dynamicKeysLoop filter (goSplit (sourceDelim delim) out))
  | _ => Except.error "kubetest: found multiple main task results"

theorem dynamicKeysLoop_eq_filter (filter : Option (String → Bool)) (l : List String) :
    dynamicKeysLoop filter l =
      l.filter fun k =>
        !(goTrimSpace k = "") && (match filter with | some f => f k | none => true) := by
  induction l with
  | nil => rfl
  | cons k rest ih =>
    rcases filter with _ | f
    · by_cases ht : goTrimSpace k = "" <;> simp [dynamicKeysLoop, List.filter, ht, ih]
    · by_cases ht : goTrimSpace k = "" <;> rcases hf : f k <;>
        simp [dynamicKeysLoop, List.filter, ht, hf, ih]

/-- C3: when exactly one main sub-task result is reported, the dynamic
keys are exactly the elements of the output split by the configured
delimiter (default `"\n"` when unset) whose trimmed value is nonempty and
which pass the optional filter, in input order; with zero or several main
results, `dynamicKeys` errors and returns no keys. -/
theorem taskScheduler_dynamicKeys_spec (mainOuts : List String) (delim : String)
    (filter : Option (String → Bool)) :
    (∀ out, mainOuts = [out] →
      dynamicKeys mainOuts delim filter =
        Except.ok ((goSplit (if delim = "" then "\n" else delim) out).filter
          fun k => !(goTrimSpace k = "") &&
            (match filter with | some f => f k | none => true))) ∧
    (mainOuts.length ≠ 1 → ∃ e, dynamicKeys mainOuts delim filter = Except.error e) := by
  constructor
  · intro out hout
    subst hout
    show Except.ok (dynamicKeysLoop filter (goSplit (sourceDelim delim) out)) = _
    rw [dynamicKeysLoop_eq_filter]
    rfl
  · intro hlen
    match mainOuts with
    | [] => exact ⟨_, rfl⟩
    | [out] => simp at hlen
    | a :: b :: rest => exact ⟨_, rfl⟩

/-- Witness for C3: output `"a\n \nbb\nc"` with the default delimiter and
a filter rejecting `"c"` yields keys `["a", "bb"]`; an empty main result
list errors. -/
theorem taskScheduler_dynamicKeys_spec_witness :
    dynamicKeys ["a\n \nbb\nc"] "" (some fun k => !(k == "c")) = Except.ok ["a", "bb"] ∧
    (∃ e, dynamicKeys [] "" none = Except.error e) := by
  have h := taskScheduler_dynamicKeys_spec ["a\n \nbb\nc"] "" (some fun k => !(k == "c"))
  have h2 := (taskScheduler_dynamicKeys_spec [] "" none).2 (by decide)
  refine ⟨?_, h2⟩
  rw [h.1 ("a\n \nbb\nc") rfl]
  exact congrArg Except.ok (by decide)

/-! ## C4 and C9: SubTask.Run and SubTaskGroup.Run (src/api/v1/subtask.go) -/

/-- Models `TaskResultStatus` (subtask.go lines 100-105). -/
inductive TaskResultStatus where
  | success
  | failure
deriving DecidableEq

/-- Models what the `JobExecutor` and the artifact-copy closure supply to
a single `SubTask.Run` call: the captured output, the command error
from `exec.Output`, and the error returned by `copyArtifact`.  Logging
and `Stop` are output-only effects and are not modelled; elapsed time and
container/pod descriptors are omitted. -/
structure SubTaskExec where
  out : String
  err : Option String
  artifactErr : Option String

/-- Models `SubTaskResult` restricted to the fields the claims read. -/
structure SubTaskResult where
  status : TaskResultStatus
  out : String
  err : Option String
  artifactErr : Option String
  name : String
  isMain : Bool

/-- Embeds `SubTask.Run` (subtask.go lines 26-66): build the result from
the command output/error, set status success iff the command error is
nil, then run the artifact copy and on error force status failure and
record `ArtifactErr`.  The function's own error return is the second
component. -/
def subTaskRun (name : String) (isMain : Bool) (exec : SubTaskExec) :
    SubTaskResult × Option String :=
  let base : SubTaskResult :=
    { status := TaskResultStatus.success, out := exec.out, err := exec.err,
      artifactErr := none, name := name, isMain := isMain }
  let r1 := if exec.err.isNone then base
    else { base with status := TaskResultStatus.failure }
  match exec.artifactErr with
  | some e => ({ r1 with status := TaskResultStatus.failure, artifactErr := some e }, none)
  | none => (r1, none)

/-- C4: the result of `SubTask.Run` has status `failure` iff its `Err` or
its `ArtifactErr` is non-nil, and status `success` iff both are nil. -/
theorem subTask_run_status_spec (name : String) (isMain : Bool) (exec : SubTaskExec) :
    ((subTaskRun name isMain exec).1.status = TaskResultStatus.failure ↔
      ((subTaskRun name isMain exec).1.err ≠ none ∨
        (subTaskRun name isMain exec).1.artifactErr ≠ none)) ∧
    ((subTaskRun name isMain exec).1.status = TaskResultStatus.success ↔
      ((subTaskRun name isMain exec).1.err = none ∧
        (subTaskRun name isMain exec).1.artifactErr = none)) := by
  rcases exec with ⟨out, err, artifactErr⟩
  rcases err with _ | e <;> rcases artifactErr with _ | a <;>
    simp [subTaskRun]

/-- Embeds `SubTaskGroup.Run` (subtask.go lines 78-98).  The errgroup
fan-out is modelled sequentially: each sub-task's `Run` is invoked, a
non-nil returned error aborts the wait with that error, and otherwise the
result is appended to the result group (the claims only count results,
so the unspecified completion order is modelled as task order). -/
def subTaskGroupRun : List (String × Bool × SubTaskExec) → Except String (List SubTaskResult)
  | [] => Except.ok []
  | (name, isMain, exec) :: rest =>
    match (subTaskRun name isMain exec).2 with
    | some e => Except.error e
    | none =>
      match subTaskGroupRun rest with
      | Except.error e => Except.error e
      | Except.ok rs => Except.ok ((subTaskRun name isMain exec).1 :: rs)

/-- C9: `SubTask.Run` always returns a nil error, and `SubTaskGroup.Run`
always returns a nil error together with exactly one result per
sub-task; command and artifact failures surface only inside the results. -/
theorem subTask_errors_never_propagate (tasks : List (String × Bool × SubTaskExec)) :
    (∀ (name : String) (isMain : Bool) (exec : SubTaskExec),
      (subTaskRun name isMain exec).2 = none) ∧
    (∃ rs, subTaskGroupRun tasks = Except.ok rs ∧ rs.length = tasks.length) := by
  have hrun : ∀ (name : String) (isMain : Bool) (exec : SubTaskExec),
      (subTaskRun name isMain exec).2 = none := by
    intro name isMain exec
    rcases exec with ⟨out, err, artifactErr⟩
    rcases artifactErr with _ | a <;> simp [subTaskRun]
  refine ⟨hrun, ?_⟩
  induction tasks with
  | nil => exact ⟨[], rfl, rfl⟩
  | cons t rest ih =>
    rcases t with ⟨name, isMain, exec⟩
    rcases ih with ⟨rs, hok, hlen⟩
    refine ⟨(subTaskRun name isMain exec).1 :: rs, ?_, by simp [hlen]⟩
    show (match (subTaskRun name isMain exec).2 with
      | some e => Except.error e
      | none => _) = _
    rw [hrun name isMain exec, hok]

/-! ## C10: localJobExecutor.cmd (src/unnamed/part_003 lines 259-278) -/

/-- Models the `exec.Cmd` fields that `localJobExecutor.cmd` populates:
the argv, the explicitly-set environment, and the working directory. -/
structure LocalCmd where
  argv : List String
  env : List String
  dir : String
deriving DecidableEq

/-- The environment loop of `localJobExecutor.cmd` (part_003 lines
270-275): env vars with an empty `Value` are skipped, the rest become
`"name=value"` entries. -/
def localEnvLoop : List EnvVar → List String
  | [] => []
  | e :: rest =>
    if e.value = "" then localEnvLoop rest
    else (e.name ++ "=" ++ e.value) :: localEnvLoop rest

/-- Embeds `localJobExecutor.cmd` (part_003 lines 259-278).
`filepath.Join` is modelled as `"/"`-separated concatenation; path
cleaning is irrelevant to the claims. -/
def localJobExecutorCmd (rootDir : String) (c : Container) : Except String LocalCmd :=
  match c.command ++ c.args with
  | [] => Except.error "kubetest: invalid command. command is empty"
  | prog :: rest =>
    Except.ok { argv := prog :: rest, env := localEnvLoop c.env,
                dir := rootDir ++ "/" ++ c.workingDir }

theorem localEnvLoop_eq_filter (l : List EnvVar) :
    localEnvLoop l =
      (l.filter fun e => !(e.value = "")).map fun e => e.name ++ "=" ++ e.value := by
  induction l with
  | nil => rfl
  | cons e rest ih =>
    by_cases h : e.value = "" <;> simp [localEnvLoop, List.filter, h, ih]

/-- C10: the local backend's spawned command receives exactly the
container env vars with nonempty `Value`, formatted `name=value`;
empty-valued env vars are silently omitted. -/
theorem localJobExecutor_cmd_env_spec (rootDir : String) (c : Container)
    (h : c.command ++ c.args ≠ []) :
    ∃ m, localJobExecutorCmd rootDir c = Except.ok m ∧
      m.env = (c.env.filter fun e => !(e.value = "")).map
        (fun e => e.name ++ "=" ++ e.value) ∧
      (∀ e ∈ c.env, e.value = "" → ∀ entry ∈ m.env,
        ∃ e2 ∈ c.env, e2.value ≠ "" ∧ entry = e2.name ++ "=" ++ e2.value) := by
  match hc : c.command ++ c.args with
  | [] => exact absurd hc h
  | prog :: rest =>
    refine ⟨{ argv := prog :: rest, env := localEnvLoop c.env,
              dir := rootDir ++ "/" ++ c.workingDir }, ?_, ?_, ?_⟩
    · unfold localJobExecutorCmd
      rw [hc]
    · exact localEnvLoop_eq_filter c.env
    · intro e _ _ entry hentry
      rw [localEnvLoop_eq_filter] at hentry
      rcases List.mem_map.mp hentry with ⟨e2, he2, hfmt⟩
      rcases List.mem_filter.mp he2 with ⟨hmem, hval⟩
      refine ⟨e2, hmem, ?_, hfmt.symm⟩
      simpa using hval

/-- Witness for C10: a container with env `A=1`, `B=` (empty), `C=2`
runs with environment `["A=1", "C=2"]`. -/
theorem localJobExecutor_cmd_env_spec_witness :
    ∃ m, localJobExecutorCmd "/root"
        { name := "test", command := ["echo"], args := ["hello"],
          env := [⟨"A", "1"⟩, ⟨"B", ""⟩, ⟨"C", "2"⟩] } = Except.ok m ∧
      m.env = ["A=1", "C=2"] := by
  have h := localJobExecutor_cmd_env_spec "/root"
    { name := "test", command := ["echo"], args := ["hello"],
      env := [⟨"A", "1"⟩, ⟨"B", ""⟩, ⟨"C", "2"⟩] } (by decide)
  rcases h with ⟨m, hok, henv, _⟩
  exact ⟨m, hok, by rw [henv]; decide⟩

/-! ## C8: MaskedMessage.Filter (src/unnamed/part_002 lines 94-138)

Messages and masks are modelled as character lists.  `strings.Replace`
with count `-1` is embedded as greedy left-to-right non-overlapping
replacement; `MaskedMessage.mask` folds it over the registered masks in
registration order, replacing each mask by `'*'` repeated to its
length. -/

theorem isPrefixOf_spec (l₁ l₂ : List Char) : l₁.isPrefixOf l₂ = true ↔ l₁ <+: l₂ := by
  simp

/-- Embeds `strings.Replace(msg, old, new, -1)` as called by
`MaskedMessage.mask` (part_002 line 127): greedy left-to-right
replacement of every non-overlapping occurrence of `pat` by `rep`.  (An
empty `pat` leaves the message unchanged here; `mask` pairs an empty
mask with an empty replacement, for which Go's insert-between-characters
behaviour also returns the message unchanged.) -/
def replaceAll (pat rep : List Char) (s : List Char) : List Char :=
  match s with
  | [] => []
  | c :: rest =>
    if h : pat ≠ [] ∧ pat.isPrefixOf (c :: rest) = true then
      rep ++ replaceAll pat rep ((c :: rest).drop pat.length)
    else
      c :: replaceAll pat rep rest
termination_by s.length
decreasing_by
  · simp only [List.length_drop, List.length_cons]
    have hp : 1 ≤ pat.length := by
      rcases pat with _ | ⟨p, ps⟩
      · exact absurd rfl h.1
      · simp
    omega
  · simp only [List.length_cons]
    omega

/-- Embeds the loop of `MaskedMessage.mask` (part_002 lines 123-130):
for each registered mask in order, replace its occurrences by `"*"`
repeated to the mask's length (`strings.Repeat("*", len(mask))`). -/
def maskMessage (msg : List Char) (masks : List (List Char)) : List Char :=
  match masks with
  | [] => msg
  | mask :: rest => maskMessage (replaceAll mask (List.replicate mask.length '*') msg) rest

/-- Embeds `MaskedMessage.Filter` (part_002 lines 116-121): mask the
given message with the registered masks (the mutex snapshot is
immaterial in this sequential model). -/
def maskedMessageFilter (masks : List (List Char)) (msg : List Char) : List Char :=
  maskMessage msg masks

theorem replaceAll_length (pat rep : List Char) (hlen : rep.length = pat.length) :
    ∀ s : List Char, (replaceAll pat rep s).length = s.length := by
  intro s
  induction s using replaceAll.induct pat rep with
  | case1 => rw [replaceAll]
  | case2 c rest h ih =>
    rw [replaceAll, dif_pos h, List.length_append, ih]
    have hple : pat.length ≤ (c :: rest).length := by
      have hpre : pat <+: (c :: rest) := by simpa using h.2
      exact hpre.length_le
    simp only [List.length_drop, List.length_cons] at *
    omega
  | case3 c rest h ih =>
    rw [replaceAll, dif_neg h, List.length_cons, ih]
    simp

/-- Replacement by same-length all-star text cannot create a new
occurrence of any star-free pattern `q`: an occurrence of `q` at
position `n` of the output was already present at position `n` of the
input. -/
theorem replaceAll_drop_pre (pat rep : List Char) (hrep : ∀ c ∈ rep, c = '*')
    (hlen : rep.length = pat.length) :
    ∀ (s q : List Char) (n : Nat), '*' ∉ q →
      q <+: (replaceAll pat rep s).drop n → q <+: s.drop n := by
  intro s
  induction s using replaceAll.induct pat rep with
  | case1 =>
    intro q n hq hpre
    rw [replaceAll] at hpre
    simpa using hpre
  | case2 c rest h ih =>
    intro q n hq hpre
    rw [replaceAll, dif_pos h, List.drop_append_eq_append_drop] at hpre
    have hple : pat.length ≤ (c :: rest).length := by
      have hp : pat <+: (c :: rest) := by simpa using h.2
      exact hp.length_le
    rcases le_or_lt rep.length n with hn | hn
    · rw [List.drop_of_length_le hn, List.nil_append] at hpre
      have ihq := ih q (n - rep.length) hq hpre
      rw [List.drop_drop] at ihq
      have harith : pat.length + (n - rep.length) = n := by omega
      rwa [harith] at ihq
    · rcases q with _ | ⟨qc, qt⟩
      · exact ⟨_, rfl⟩
      · exfalso
        rcases hd : rep.drop n with _ | ⟨d, ds⟩
        · have := congrArg List.length hd
          simp only [List.length_drop, List.length_nil] at this
          omega
        · rw [hd] at hpre
          obtain ⟨t, ht⟩ := hpre
          simp only [List.cons_append] at ht
          have hqc : qc = d := (List.cons.injEq _ _ _ _).mp ht |>.1
          have hdm : d ∈ rep := List.mem_of_mem_drop (hd ▸ List.mem_cons_self d ds)
          have hstar : qc = '*' := by rw [hqc]; exact hrep d hdm
          refine hq ?_
          rw [hstar]
          exact List.mem_cons_self _ _
  | case3 c rest h ih =>
    intro q n hq hpre
    rw [replaceAll, dif_neg h] at hpre
    rcases n with _ | m
    · rcases q with _ | ⟨qc, qt⟩
      · exact ⟨_, rfl⟩
      · obtain ⟨t, ht⟩ := hpre
        simp only [List.drop_zero, List.cons_append] at ht
        have h1 : qc = c := (List.cons.injEq _ _ _ _).mp ht |>.1
        have h2 : qt ++ t = replaceAll pat rep rest := (List.cons.injEq _ _ _ _).mp ht |>.2
        have hqt : qt <+: (replaceAll pat rep rest).drop 0 := by
          rw [List.drop_zero]
          exact ⟨t, h2⟩
        have ihq := ih qt 0 (fun hm => hq (List.mem_cons_of_mem _ hm)) hqt
        rw [List.drop_zero] at ihq
        obtain ⟨u, hu⟩ := ihq
        rw [List.drop_zero]
        exact ⟨u, by rw [h1, List.cons_append, hu]⟩
    · rw [List.drop_succ_cons] at hpre
      have ihq := ih q m hq hpre
      rwa [List.drop_succ_cons]

theorem replaceAll_nil (pat rep : List Char) : replaceAll pat rep [] = [] := by
  rw [replaceAll]

theorem replaceAll_pos (pat rep : List Char) (c : Char) (rest : List Char)
    (h : pat ≠ [] ∧ pat.isPrefixOf (c :: rest) = true) :
    replaceAll pat rep (c :: rest) =
      rep ++ replaceAll pat rep ((c :: rest).drop pat.length) := by
  rw [replaceAll.eq_def]
  exact dif_pos h

/-- After replacing every occurrence of a nonempty star-free `pat` by
same-length all-star text, no occurrence of `pat` remains at any
position of the output. -/
theorem replaceAll_not_occurs (pat rep : List Char) (hne : pat ≠ []) (hstar : '*' ∉ pat)
    (hrep : ∀ c ∈ rep, c = '*') (hlen : rep.length = pat.length) :
    ∀ (s : List Char) (n : Nat), ¬ pat <+: (replaceAll pat rep s).drop n := by
  intro s
  induction s using replaceAll.induct pat rep with
  | case1 =>
    intro n hpre
    rw [replaceAll] at hpre
    obtain ⟨t, ht⟩ := hpre
    rw [List.drop_nil] at ht
    exact hne (List.append_eq_nil.mp ht).1
  | case2 c rest h ih =>
    intro n hpre
    rw [replaceAll, dif_pos h, List.drop_append_eq_append_drop] at hpre
    rcases le_or_lt rep.length n with hn | hn
    · rw [List.drop_of_length_le hn, List.nil_append] at hpre
      exact ih (n - rep.length) hpre
    · rcases hp : pat with _ | ⟨pc, pt⟩
      · exact hne hp
      · rcases hd : rep.drop n with _ | ⟨d, ds⟩
        · have := congrArg List.length hd
          simp only [List.length_drop, List.length_nil] at this
          omega
        · rw [hd, hp] at hpre
          obtain ⟨t, ht⟩ := hpre
          simp only [List.cons_append] at ht
          have hpc : pc = d := (List.cons.injEq _ _ _ _).mp ht |>.1
          have hdm : d ∈ rep := List.mem_of_mem_drop (hd ▸ List.mem_cons_self d ds)
          have hpcstar : pc = '*' := by rw [hpc]; exact hrep d hdm
          refine hstar ?_
          rw [hp, ← hpcstar]
          exact List.mem_cons_self _ _
  | case3 c rest h ih =>
    intro n hpre
    rw [replaceAll, dif_neg h] at hpre
    rcases n with _ | m
    · rcases hp : pat with _ | ⟨pc, pt⟩
      · exact hne hp
      · rw [hp, List.drop_zero] at hpre
        obtain ⟨t, ht⟩ := hpre
        simp only [List.cons_append] at ht
        have h1 : pc = c := (List.cons.injEq _ _ _ _).mp ht |>.1
        have h2 : pt ++ t = replaceAll (pc :: pt) rep rest :=
          (List.cons.injEq _ _ _ _).mp ht |>.2
        have hptstar : '*' ∉ pt := fun hm => hstar (hp ▸ List.mem_cons_of_mem _ hm)
        have hpt : pt <+: rest.drop 0 := by
          refine replaceAll_drop_pre pat rep hrep hlen rest pt 0 hptstar ?_
          rw [List.drop_zero, hp]
          exact ⟨t, h2⟩
        rw [List.drop_zero] at hpt
        obtain ⟨u, hu⟩ := hpt
        refine h ⟨hne, ?_⟩
        rw [isPrefixOf_spec, hp]
        exact ⟨u, by rw [List.cons_append, hu, h1]⟩
    · rw [List.drop_succ_cons] at hpre
      exact ih m hpre

/-- Occurrence as a contiguous substring, characterized by positions. -/
theorem isInfix_iff_ex_drop (q w : List Char) : q <:+: w ↔ ∃ n, q <+: w.drop n := by
  constructor
  · intro hinf
    obtain ⟨u, v, huv⟩ := hinf
    refine ⟨u.length, v, ?_⟩
    rw [← huv, List.append_assoc, List.drop_left]
  · intro hex
    obtain ⟨n, t, ht⟩ := hex
    refine ⟨w.take n, t, ?_⟩
    rw [List.append_assoc, ht, List.take_append_drop]

/-- Masking with further masks preserves the absence of a star-free
pattern. -/
theorem maskMessage_not_occurs_pres (q : List Char) (hstar : '*' ∉ q) :
    ∀ (masks : List (List Char)) (w : List Char),
      ¬ q <:+: w → ¬ q <:+: maskMessage w masks := by
  intro masks
  induction masks with
  | nil => intro w hw; exact hw
  | cons mask rest ih =>
    intro w hw
    rw [maskMessage]
    refine ih _ ?_
    intro hocc
    rcases (isInfix_iff_ex_drop _ _).mp hocc with ⟨n, hpre⟩
    have hq := replaceAll_drop_pre mask (List.replicate mask.length '*')
      (fun c hc => List.eq_of_mem_replicate hc) (List.length_replicate _ _)
      w q n hstar hpre
    exact hw ((isInfix_iff_ex_drop _ _).mpr ⟨n, hq⟩)

theorem maskMessage_length :
    ∀ (masks : List (List Char)) (msg : List Char),
      (maskMessage msg masks).length = msg.length := by
  intro masks
  induction masks with
  | nil => intro msg; rfl
  | cons mask rest ih =>
    intro msg
    rw [maskMessage, ih, replaceAll_length _ _ (List.length_replicate _ _)]

/-- C8 core: after filtering, no registered mask that is nonempty and
star-free occurs in the output. -/
theorem maskMessage_no_mask_occurs :
    ∀ (masks : List (List Char)) (msg : List Char),
      (∀ m ∈ masks, m ≠ [] ∧ '*' ∉ m) →
      ∀ m ∈ masks, ¬ m <:+: maskMessage msg masks := by
  intro masks
  induction masks with
  | nil => intro msg _ m hm; exact absurd hm (List.not_mem_nil m)
  | cons mask rest ih =>
    intro msg hmasks m hm
    rw [maskMessage]
    rcases List.mem_cons.mp hm with hq | hq
    · subst hq
      have hprop := hmasks m (List.mem_cons_self _ _)
      refine maskMessage_not_occurs_pres m hprop.2 rest _ ?_
      intro hocc
      rcases (isInfix_iff_ex_drop _ _).mp hocc with ⟨n, hpre⟩
      exact replaceAll_not_occurs m (List.replicate m.length '*') hprop.1 hprop.2
        (fun c hc => List.eq_of_mem_replicate hc) (List.length_replicate _ _)
        msg n hpre
    · exact ih _ (fun m2 hm2 => hmasks m2 (List.mem_cons_of_mem _ hm2)) m hq

/-- C8: the claim fails as stated.  With the single registered mask
`"*"` and message `"*"`, `Filter` replaces the occurrence of the mask by
`"*"` (a star of the mask's length) and the registered token `"*"` still
appears as a substring of the filtered output. -/
theorem maskedMessageFilter_star_counterexample :
    maskedMessageFilter [['*']] ['*'] = ['*'] ∧
    (['*'] : List Char) ∈ [(['*'] : List Char)] ∧
    (['*'] : List Char) <:+: maskedMessageFilter [['*']] ['*'] := by
  have h1 : maskedMessageFilter [['*']] ['*'] = ['*'] := by
    show maskMessage ['*'] [['*']] = ['*']
    rw [maskMessage, maskMessage,
      replaceAll_pos _ _ _ _ ⟨by decide, by decide⟩,
      show List.drop (List.length ['*']) ['*'] = [] from rfl, replaceAll_nil]
    decide
  refine ⟨h1, List.mem_cons_self _ _, ?_⟩
  rw [h1]

/-- C8 (amended): `Filter` returns the message with, in registration
order, every occurrence of each registered mask replaced by `'*'`
repeated to that mask's length (in particular the message length is
preserved); provided every registered mask is nonempty and does not
itself contain `'*'`, no registered token value appears as a substring
of the filtered output. -/
theorem maskedMessageFilter_spec (masks : List (List Char)) (msg : List Char)
    (h : ∀ m ∈ masks, m ≠ [] ∧ '*' ∉ m) :
    (maskedMessageFilter masks msg).length = msg.length ∧
    ∀ m ∈ masks, ¬ m <:+: maskedMessageFilter masks msg := by
  exact ⟨maskMessage_length masks msg, maskMessage_no_mask_occurs masks msg h⟩

/-- Witness for C8: masking `"abc"` with mask `"ab"` yields a same-length
output in which `"ab"` no longer occurs. -/
theorem maskedMessageFilter_spec_witness :
    (maskedMessageFilter [['a', 'b']] ['a', 'b', 'c']).length = 3 ∧
    ¬ (['a', 'b'] : List Char) <:+: maskedMessageFilter [['a', 'b']] ['a', 'b', 'c'] := by
  have h := maskedMessageFilter_spec [['a', 'b']] ['a', 'b', 'c'] (by decide)
  exact ⟨by rw [h.1]; rfl, h.2 ['a', 'b'] (List.mem_cons_self _ _)⟩

/-! ## Task builder data model (src/api/v1/task_builder.go)

`TestJobVolume` carries one of the tagged volume sources; Go's
name-keyed maps become insertion-ordered association lists whose lookup
returns the most recent binding (matching Go's overwrite-on-insert);
`filepath.Join` becomes `"/"`-separated concatenation (no path cleaning
is exercised by the claims).  A `TaskContainerGroup`'s name-keyed
`containerMap` is modelled by its *value set*: inserting the containers
in declaration order keeps, for every name, the last container with
that name.  Go randomizes map iteration order, so functions that read
the map in iteration order (`preInitImage`, `preInitImagePullPolicy`)
take the enumeration as an argument and the C5 theorem quantifies over
all permutations of the canonical value enumeration. -/

/-- Models `TestJobVolumeSource` (one pointer set, or the raw
passthrough `corev1.VolumeSource` abstracted as a tag). -/
inductive TestJobVolumeSource where
  | repo (name : String)
  | token (name : String)
  | artifact (name : String)
  | log
  | report
  | raw (tag : String)
deriving DecidableEq

/-- Models `TestJobVolume`. -/
structure TestJobVolume where
  name : String
  source : TestJobVolumeSource
deriving DecidableEq

/-- Models the `corev1.VolumeSource` values the builder writes. -/
inductive PodVolumeSource where
  | emptyDir
  | raw (tag : String)
deriving DecidableEq

/-- Models `corev1.Volume`. -/
structure PodVolume where
  name : String
  source : PodVolumeSource
deriving DecidableEq

/-- Go map lookup over an insertion-ordered association list: the most
recently inserted binding for the key wins. -/
def alistLookup {α : Type} (m : List (String × α)) (key : String) : Option α :=
  (m.reverse.find? fun p => p.1 == key).map fun p => p.2

/-- Embeds the `volumeNameToVolume` map of `newTaskContainer`
(task_builder.go lines 928-931): the last volume with a given name
wins. -/
def lookupVolume (volumes : List TestJobVolume) (name : String) : Option TestJobVolume :=
  volumes.reverse.find? fun v => v.name == name

/-- The Go zero value `TestJobVolume{}` returned by a failed map lookup:
empty name, no source pointers set (raw passthrough of the zero
`corev1.VolumeSource`). -/
def zeroVolume : TestJobVolume := { name := "", source := TestJobVolumeSource.raw "" }

/-- The accumulated state of the `for idx, vm := range c.VolumeMounts`
loop of `newTaskContainer` (task_builder.go lines 932-1021): the
rewritten volume mounts plus all the per-kind maps. -/
structure MountState where
  mounts : List VolumeMount := []
  repoArchive : List (String × String) := []
  repoOrg : List (String × String) := []
  tokenMount : List (String × String) := []
  tokenOrg : List (String × String) := []
  artifactMount : List (String × String) := []
  artifactOrg : List (String × String) := []
  logOrg : List String := []
  reportOrg : List String := []
  podVolumes : List (String × PodVolume) := []
  preInitMounts : List (String × VolumeMount) := []

/-- Embeds the loop body of `newTaskContainer` over the container's
volume mounts, head processed first (so list order is Go's insertion
order). -/
def processMounts (volumes : List TestJobVolume) : List VolumeMount → MountState
  | [] => {}
  | vm :: rest =>
    let s := processMounts volumes rest
    let volume := (lookupVolume volumes vm.name).getD zeroVolume
    match volume.source with
    | TestJobVolumeSource.repo repoName =>
      let archive := "/tmp/repo-archive/" ++ volume.name
      { s with
        mounts := { name := vm.name, mountPath := archive } :: s.mounts,
        repoArchive := (repoName, archive) :: s.repoArchive,
        repoOrg := (repoName, vm.mountPath) :: s.repoOrg,
        podVolumes := (volume.name,
          { name := volume.name, source := PodVolumeSource.emptyDir }) :: s.podVolumes,
        preInitMounts := (volume.name,
          { name := volume.name, mountPath := archive }) :: s.preInitMounts }
    | TestJobVolumeSource.artifact artifactName =>
      let archive := "/tmp/artifact-archive/" ++ volume.name
      { s with
        mounts := { name := vm.name, mountPath := archive } :: s.mounts,
        artifactMount := (artifactName, archive) :: s.artifactMount,
        artifactOrg := (artifactName, vm.mountPath) :: s.artifactOrg,
        podVolumes := (volume.name,
          { name := volume.name, source := PodVolumeSource.emptyDir }) :: s.podVolumes,
        preInitMounts := (volume.name,
          { name := volume.name, mountPath := archive }) :: s.preInitMounts }
    | TestJobVolumeSource.token tokenName =>
      let tokenPath := "/tmp/token/" ++ volume.name
      { s with
        mounts := { name := vm.name, mountPath := tokenPath } :: s.mounts,
        tokenMount := (tokenName, tokenPath) :: s.tokenMount,
        tokenOrg := (tokenName, vm.mountPath) :: s.tokenOrg,
        podVolumes := (volume.name,
          { name := volume.name, source := PodVolumeSource.emptyDir }) :: s.podVolumes,
        preInitMounts := (volume.name,
          { name := volume.name, mountPath := tokenPath }) :: s.preInitMounts }
    | TestJobVolumeSource.log =>
      { s with
        mounts := { name := vm.name, mountPath := "/tmp/log" } :: s.mounts,
        logOrg := vm.mountPath :: s.logOrg,
        podVolumes := (volume.name,
          { name := volume.name, source := PodVolumeSource.emptyDir }) :: s.podVolumes,
        preInitMounts := (volume.name,
          { name := volume.name, mountPath := "/tmp/log" }) :: s.preInitMounts }
    | TestJobVolumeSource.report =>
      { s with
        mounts := { name := vm.name, mountPath := "/tmp/report" } :: s.mounts,
        reportOrg := vm.mountPath :: s.reportOrg,
        podVolumes := (volume.name,
          { name := volume.name, source := PodVolumeSource.emptyDir }) :: s.podVolumes,
        preInitMounts := (volume.name,
          { name := volume.name, mountPath := "/tmp/report" }) :: s.preInitMounts }
    | TestJobVolumeSource.raw tag =>
      { s with
        mounts := vm :: s.mounts,
        podVolumes := (volume.name,
          { name := volume.name, source := PodVolumeSource.raw tag }) :: s.podVolumes }

/-- Models `TaskContainer` (task_builder.go lines 893-906). -/
structure TaskContainer where
  container : Container
  repoNameToArchiveMountPath : List (String × String)
  repoNameToOrgMountPath : List (String × String)
  tokenNameToMountPath : List (String × String)
  tokenNameToOrgMountPath : List (String × String)
  artifactNameToMountPath : List (String × String)
  artifactNameToOrgMountPath : List (String × String)
  logOrgMountPaths : List String
  reportOrgMountPaths : List String
  podSpecVolumeMap : List (String × PodVolume)
  preInitVolumeMountMap : List (String × VolumeMount)

/-- Embeds `newTaskContainer` (task_builder.go lines 912-1035). -/
def newTaskContainer (c : Container) (volumes : List TestJobVolume) : TaskContainer :=
  let s := processMounts volumes c.volumeMounts
  { container := { c with volumeMounts := s.mounts },
    repoNameToArchiveMountPath := s.repoArchive,
    repoNameToOrgMountPath := s.repoOrg,
    tokenNameToMountPath := s.tokenMount,
    tokenNameToOrgMountPath := s.tokenOrg,
    artifactNameToMountPath := s.artifactMount,
    artifactNameToOrgMountPath := s.artifactOrg,
    logOrgMountPaths := s.logOrg,
    reportOrgMountPaths := s.reportOrg,
    podSpecVolumeMap := s.podVolumes,
    preInitVolumeMountMap := s.preInitMounts }

/-- Embeds `TaskContainer.hasTestVolumeMount` (task_builder.go lines
908-910). -/
def hasTestVolumeMount (tc : TaskContainer) : Bool :=
  !tc.preInitVolumeMountMap.isEmpty

/-- The value set of a name-keyed Go map filled by inserting the
containers in declaration order: for every name only the last container
with that name survives (`m[c.Name] = …` overwrites). -/
def keepLastByName : List Container → List Container
  | [] => []
  | c :: rest =>
    if rest.any fun c2 => c2.name == c.name then keepLastByName rest
    else c :: keepLastByName rest

/-- Embeds `newTaskContainerGroup` (task_builder.go lines 883-891): the
name-keyed `containerMap` is modelled by a canonical enumeration of its
values (last duplicate name wins).  Go randomizes map iteration order,
so theorems about order-dependent reads of the group quantify over all
permutations of this list. -/
def newTaskContainerGroup (containers : List Container) (volumes : List TestJobVolume) :
    List TaskContainer :=
  (keepLastByName containers).map fun c => newTaskContainer c volumes

/-- Embeds `TaskContainerGroup.hasTestVolumeMount` (task_builder.go
lines 856-863); existence over the map values is independent of the
iteration order. -/
def groupHasTestVolumeMount (g : List TaskContainer) : Bool :=
  g.any hasTestVolumeMount

/-- Embeds `TaskContainerGroup.preInitImage` (task_builder.go lines
865-872): the image of the first container with a test volume mount in
the given enumeration `g` of the map's values — Go's map iteration
order is randomized, so `g` is an arbitrary permutation of the group's
value list in the C5 theorem. -/
def groupPreInitImage (g : List TaskContainer) : String :=
  match g.find? hasTestVolumeMount with
  | some tc => tc.container.image
  | none => ""

/-- Embeds `TaskContainerGroup.preInitImagePullPolicy` (task_builder.go
lines 874-881); like `groupPreInitImage`, `g` is an arbitrary
enumeration of the map's values. -/
def groupPreInitImagePullPolicy (g : List TaskContainer) : String :=
  match g.find? hasTestVolumeMount with
  | some tc => tc.container.imagePullPolicy
  | none => ""

/-- Models `TaskBuildContext` (task_builder.go lines 503-508). -/
structure TaskBuildContext where
  initContainers : List TaskContainer
  containers : List TaskContainer
  finalizerContainers : List TaskContainer

/-- Embeds the `TaskBuildContext` construction in `buildJob`
(task_builder.go lines 127-132): the finalizer group holds the single
(possibly zero-valued) finalizer container.  The groups carry the
canonical value enumerations; uses that depend on the randomized map
iteration order are quantified over permutations in the C5 theorem. -/
def mkTaskBuildContext (initContainers containers : List Container)
    (finalizerContainer : Container) (volumes : List TestJobVolume) : TaskBuildContext :=
  { initContainers := newTaskContainerGroup initContainers volumes,
    containers := newTaskContainerGroup containers volumes,
    finalizerContainers := newTaskContainerGroup [finalizerContainer] volumes }

/-- Embeds `TaskBuildContext.needsToPreInit` (task_builder.go lines
666-668). -/
def needsToPreInit (ctx : TaskBuildContext) : Bool :=
  groupHasTestVolumeMount ctx.initContainers ||
    groupHasTestVolumeMount ctx.containers ||
      groupHasTestVolumeMount ctx.finalizerContainers

/-- Embeds `TaskBuildContext.preInitImage` (task_builder.go lines
714-720): the init-container group is consulted first, then the main
group; the finalizer group is never consulted. -/
def ctxPreInitImage (ctx : TaskBuildContext) : String :=
  let image := groupPreInitImage ctx.initContainers
  if image ≠ "" then image else groupPreInitImage ctx.containers

/-- Embeds `TaskBuildContext.preInitImagePullPolicy` (task_builder.go
lines 722-728). -/
def ctxPreInitImagePullPolicy (ctx : TaskBuildContext) : String :=
  let policy := groupPreInitImagePullPolicy ctx.initContainers
  if policy ≠ "" then policy else groupPreInitImagePullPolicy ctx.containers

/-- Whether a volume mount name resolves (through the volume list) to a
Repo/Token/Artifact/Log/Report volume. -/
def specialVolumeB (volumes : List TestJobVolume) (name : String) : Bool :=
  match ((lookupVolume volumes name).getD zeroVolume).source with
  | TestJobVolumeSource.raw _ => false
  | _ => true

/-- Whether a container declares at least one
Repo/Token/Artifact/Log/Report volume mount. -/
def hasSpecialMountB (volumes : List TestJobVolume) (c : Container) : Bool :=
  c.volumeMounts.any fun vm => specialVolumeB volumes vm.name

theorem processMounts_preInit_isEmpty (volumes : List TestJobVolume)
    (mounts : List VolumeMount) :
    (processMounts volumes mounts).preInitMounts.isEmpty =
      !(mounts.any fun vm => specialVolumeB volumes vm.name) := by
  induction mounts with
  | nil => rfl
  | cons vm rest ih =>
    cases hsrc : ((lookupVolume volumes vm.name).getD zeroVolume).source <;>
      simp [processMounts, hsrc, specialVolumeB, ih]

theorem hasTestVolumeMount_newTaskContainer (c : Container) (volumes : List TestJobVolume) :
    hasTestVolumeMount (newTaskContainer c volumes) = hasSpecialMountB volumes c := by
  simp [hasTestVolumeMount, newTaskContainer, hasSpecialMountB,
    processMounts_preInit_isEmpty]

theorem group_any_eq (containers : List Container) (volumes : List TestJobVolume) :
    (newTaskContainerGroup containers volumes).any hasTestVolumeMount =
      (keepLastByName containers).any (hasSpecialMountB volumes) := by
  rw [newTaskContainerGroup]
  generalize keepLastByName containers = l
  induction l with
  | nil => rfl
  | cons c rest ih =>
    simp only [List.map_cons, List.any_cons, ih, hasTestVolumeMount_newTaskContainer]

/-- `any` over a list is invariant under permutation (Go's randomized
map iteration order cannot change existence checks). -/
theorem perm_any_eq {α : Type} {l₁ l₂ : List α} (hp : l₁.Perm l₂) (p : α → Bool) :
    l₁.any p = l₂.any p := by
  cases hb1 : l₁.any p <;> cases hb2 : l₂.any p
  · rfl
  · rw [List.any_eq_true] at hb2
    obtain ⟨x, hx, hpx⟩ := hb2
    have hcontra : l₁.any p = true := List.any_eq_true.mpr ⟨x, hp.mem_iff.mpr hx, hpx⟩
    rw [hb1] at hcontra
    exact hcontra
  · rw [List.any_eq_true] at hb1
    obtain ⟨x, hx, hpx⟩ := hb1
    have hcontra : l₂.any p = true := List.any_eq_true.mpr ⟨x, hp.mem_iff.mp hx, hpx⟩
    rw [hb2] at hcontra
    exact hcontra.symm
  · rfl

theorem mem_group_iff (containers : List Container) (volumes : List TestJobVolume)
    (tc : TaskContainer) :
    tc ∈ newTaskContainerGroup containers volumes ↔
      ∃ c ∈ keepLastByName containers, newTaskContainer c volumes = tc := by
  simp [newTaskContainerGroup]

/-- Whatever the enumeration order, `preInitImage` over a group either
returns `""` with no group member holding a test volume mount, or it
returns the image of some member that does. -/
theorem groupPreInitImage_spec (g : List TaskContainer) :
    (groupPreInitImage g = "" ∧ ∀ c ∈ g, hasTestVolumeMount c = false) ∨
    ∃ c ∈ g, hasTestVolumeMount c = true ∧ groupPreInitImage g = c.container.image := by
  rcases hfind : g.find? hasTestVolumeMount with _ | tc
  · left
    constructor
    · simp only [groupPreInitImage, hfind]
    · rw [List.find?_eq_none] at hfind
      intro c hc
      have hcontra := hfind c hc
      simpa using hcontra
  · right
    refine ⟨tc, List.mem_of_find?_eq_some hfind, List.find?_some hfind, ?_⟩
    simp only [groupPreInitImage, hfind]

theorem groupPreInitImagePullPolicy_spec (g : List TaskContainer) :
    (groupPreInitImagePullPolicy g = "" ∧ ∀ c ∈ g, hasTestVolumeMount c = false) ∨
    ∃ c ∈ g, hasTestVolumeMount c = true ∧
      groupPreInitImagePullPolicy g = c.container.imagePullPolicy := by
  rcases hfind : g.find? hasTestVolumeMount with _ | tc
  · left
    constructor
    · simp only [groupPreInitImagePullPolicy, hfind]
    · rw [List.find?_eq_none] at hfind
      intro c hc
      have hcontra := hfind c hc
      simpa using hcontra
  · right
    refine ⟨tc, List.mem_of_find?_eq_some hfind, List.find?_some hfind, ?_⟩
    simp only [groupPreInitImagePullPolicy, hfind]

/-- C5: the claim fails as stated.  A pod whose *only*
Repo/Token/Artifact/Log/Report volume mount is declared by the finalizer
container gets the pre-init container (`needsToPreInit` consults the
finalizer group), but `preInitImage` consults only the init and main
container groups, so the pre-init image is `""`, not the image of the
first (and only) user container declaring such a mount.  Each group
here holds at most one container, so Go's randomized map iteration
order is immaterial: the program returns `""` for every order. -/
theorem taskBuilder_preInit_finalizer_counterexample :
    needsToPreInit (mkTaskBuildContext [] []
      { name := "fin", image := "fin-img",
        volumeMounts := [{ name := "repo-volume", mountPath := "/work" }] }
      [{ name := "repo-volume", source := TestJobVolumeSource.repo "repo" }]) = true ∧
    ctxPreInitImage (mkTaskBuildContext [] []
      { name := "fin", image := "fin-img",
        volumeMounts := [{ name := "repo-volume", mountPath := "/work" }] }
      [{ name := "repo-volume", source := TestJobVolumeSource.repo "repo" }]) = "" ∧
    ("" : String) ≠ "fin-img" := by
  refine ⟨by decide, by decide, by decide⟩

/-- C5 (amended): whatever iteration order Go's randomized maps
produce — the theorem quantifies over every permutation `gi`/`gc`/`gf`
of the three groups' value lists — the pre-init container is added iff
some container (among the name-deduplicated init, main and finalizer
containers, the last duplicate name winning) declares at least one
Repo/Token/Artifact/Log/Report volume mount; when added, its image and
pull policy are empty or those of *some* init or main container
declaring such a mount — the finalizer is never consulted, so both are
empty whenever no init or main container declares such a mount; and
when some init container declares such a mount and every such init
container has a nonempty image (resp. pull policy), the value is taken
from one of those init containers, in preference over the main group. -/
theorem taskBuilder_preInit_spec (initContainers containers : List Container)
    (finalizerContainer : Container) (volumes : List TestJobVolume)
    (gi gc gf : List TaskContainer)
    (hgi : gi.Perm (newTaskContainerGroup initContainers volumes))
    (hgc : gc.Perm (newTaskContainerGroup containers volumes))
    (hgf : gf.Perm (newTaskContainerGroup [finalizerContainer] volumes)) :
    (needsToPreInit ⟨gi, gc, gf⟩ = true ↔
      ∃ c ∈ keepLastByName initContainers ++ keepLastByName containers ++
          keepLastByName [finalizerContainer],
        ∃ vm ∈ c.volumeMounts, specialVolumeB volumes vm.name = true) ∧
    ((∀ c ∈ keepLastByName initContainers ++ keepLastByName containers,
        hasSpecialMountB volumes c = false) →
      ctxPreInitImage ⟨gi, gc, gf⟩ = "" ∧ ctxPreInitImagePullPolicy ⟨gi, gc, gf⟩ = "") ∧
    (ctxPreInitImage ⟨gi, gc, gf⟩ = "" ∨
      ∃ c ∈ keepLastByName initContainers ++ keepLastByName containers,
        hasSpecialMountB volumes c = true ∧ ctxPreInitImage ⟨gi, gc, gf⟩ = c.image) ∧
    (ctxPreInitImagePullPolicy ⟨gi, gc, gf⟩ = "" ∨
      ∃ c ∈ keepLastByName initContainers ++ keepLastByName containers,
        hasSpecialMountB volumes c = true ∧
          ctxPreInitImagePullPolicy ⟨gi, gc, gf⟩ = c.imagePullPolicy) ∧
    ((∃ c ∈ keepLastByName initContainers, hasSpecialMountB volumes c = true) →
      (∀ c ∈ keepLastByName initContainers, hasSpecialMountB volumes c = true →
        c.image ≠ "") →
      ∃ c ∈ keepLastByName initContainers, hasSpecialMountB volumes c = true ∧
        ctxPreInitImage ⟨gi, gc, gf⟩ = c.image) ∧
    ((∃ c ∈ keepLastByName initContainers, hasSpecialMountB volumes c = true) →
      (∀ c ∈ keepLastByName initContainers, hasSpecialMountB volumes c = true →
        c.imagePullPolicy ≠ "") →
      ∃ c ∈ keepLastByName initContainers, hasSpecialMountB volumes c = true ∧
        ctxPreInitImagePullPolicy ⟨gi, gc, gf⟩ = c.imagePullPolicy) := by
  have hmemgi : ∀ tc ∈ gi, ∃ c ∈ keepLastByName initContainers,
      newTaskContainer c volumes = tc :=
    fun tc htc => (mem_group_iff _ _ _).mp (hgi.mem_iff.mp htc)
  have hmemgc : ∀ tc ∈ gc, ∃ c ∈ keepLastByName containers,
      newTaskContainer c volumes = tc :=
    fun tc htc => (mem_group_iff _ _ _).mp (hgc.mem_iff.mp htc)
  have hgiex : ∀ c ∈ keepLastByName initContainers, newTaskContainer c volumes ∈ gi :=
    fun c hc => hgi.mem_iff.mpr ((mem_group_iff _ _ _).mpr ⟨c, hc, rfl⟩)
  refine ⟨?_, ?_, ?_, ?_, ?_, ?_⟩
  · have e1 : groupHasTestVolumeMount gi =
        (keepLastByName initContainers).any (hasSpecialMountB volumes) := by
      rw [groupHasTestVolumeMount, perm_any_eq hgi hasTestVolumeMount, group_any_eq]
    have e2 : groupHasTestVolumeMount gc =
        (keepLastByName containers).any (hasSpecialMountB volumes) := by
      rw [groupHasTestVolumeMount, perm_any_eq hgc hasTestVolumeMount, group_any_eq]
    have e3 : groupHasTestVolumeMount gf =
        (keepLastByName [finalizerContainer]).any (hasSpecialMountB volumes) := by
      rw [groupHasTestVolumeMount, perm_any_eq hgf hasTestVolumeMount, group_any_eq]
    show (groupHasTestVolumeMount gi || groupHasTestVolumeMount gc ||
        groupHasTestVolumeMount gf) = true ↔ _
    rw [e1, e2, e3]
    simp only [Bool.or_eq_true, List.any_eq_true, hasSpecialMountB, List.mem_append]
    constructor
    · rintro ((⟨c, hc, hvm⟩ | ⟨c, hc, hvm⟩) | ⟨c, hc, hvm⟩)
      · exact ⟨c, Or.inl (Or.inl hc), hvm⟩
      · exact ⟨c, Or.inl (Or.inr hc), hvm⟩
      · exact ⟨c, Or.inr hc, hvm⟩
    · rintro ⟨c, (hc | hc) | hc, hvm⟩
      · exact Or.inl (Or.inl ⟨c, hc, hvm⟩)
      · exact Or.inl (Or.inr ⟨c, hc, hvm⟩)
      · exact Or.inr ⟨c, hc, hvm⟩
  · intro hnone
    have hfgi : gi.find? hasTestVolumeMount = none := by
      rw [List.find?_eq_none]
      intro tc htc
      obtain ⟨c, hc, hrfl⟩ := hmemgi tc htc
      rw [← hrfl, hasTestVolumeMount_newTaskContainer]
      simp [hnone c (List.mem_append_left _ hc)]
    have hfgc : gc.find? hasTestVolumeMount = none := by
      rw [List.find?_eq_none]
      intro tc htc
      obtain ⟨c, hc, hrfl⟩ := hmemgc tc htc
      rw [← hrfl, hasTestVolumeMount_newTaskContainer]
      simp [hnone c (List.mem_append_right _ hc)]
    constructor
    · simp [ctxPreInitImage, groupPreInitImage, hfgi, hfgc]
    · simp [ctxPreInitImagePullPolicy, groupPreInitImagePullPolicy, hfgi, hfgc]
  · rcases groupPreInitImage_spec gi with ⟨hempty, _⟩ | ⟨tc, htc, hq, heq⟩
    · rcases groupPreInitImage_spec gc with ⟨hempty2, _⟩ | ⟨tc2, htc2, hq2, heq2⟩
      · left
        simp [ctxPreInitImage, hempty, hempty2]
      · right
        obtain ⟨src, hsrc, hrfl⟩ := hmemgc tc2 htc2
        subst hrfl
        have himg : (newTaskContainer src volumes).container.image = src.image := by
          simp [newTaskContainer]
        refine ⟨src, List.mem_append_right _ hsrc, ?_, ?_⟩
        · rw [← hasTestVolumeMount_newTaskContainer src volumes]
          exact hq2
        · simp [ctxPreInitImage, hempty, heq2, himg]
    · by_cases himg0 : tc.container.image = ""
      · rcases groupPreInitImage_spec gc with ⟨hempty2, _⟩ | ⟨tc2, htc2, hq2, heq2⟩
        · left
          simp [ctxPreInitImage, heq, himg0, hempty2]
        · right
          obtain ⟨src, hsrc, hrfl⟩ := hmemgc tc2 htc2
          subst hrfl
          have himg2 : (newTaskContainer src volumes).container.image = src.image := by
            simp [newTaskContainer]
          refine ⟨src, List.mem_append_right _ hsrc, ?_, ?_⟩
          · rw [← hasTestVolumeMount_newTaskContainer src volumes]
            exact hq2
          · simp [ctxPreInitImage, heq, himg0, heq2, himg2]
      · right
        obtain ⟨src, hsrc, hrfl⟩ := hmemgi tc htc
        subst hrfl
        have himg2 : (newTaskContainer src volumes).container.image = src.image := by
          simp [newTaskContainer]
        have himg0' : src.image ≠ "" := by
          rw [himg2] at himg0
          exact himg0
        refine ⟨src, List.mem_append_left _ hsrc, ?_, ?_⟩
        · rw [← hasTestVolumeMount_newTaskContainer src volumes]
          exact hq
        · simp [ctxPreInitImage, heq, himg2, himg0']
  · rcases groupPreInitImagePullPolicy_spec gi with ⟨hempty, _⟩ | ⟨tc, htc, hq, heq⟩
    · rcases groupPreInitImagePullPolicy_spec gc with ⟨hempty2, _⟩ | ⟨tc2, htc2, hq2, heq2⟩
      · left
        simp [ctxPreInitImagePullPolicy, hempty, hempty2]
      · right
        obtain ⟨src, hsrc, hrfl⟩ := hmemgc tc2 htc2
        subst hrfl
        have hpol : (newTaskContainer src volumes).container.imagePullPolicy =
            src.imagePullPolicy := by
          simp [newTaskContainer]
        refine ⟨src, List.mem_append_right _ hsrc, ?_, ?_⟩
        · rw [← hasTestVolumeMount_newTaskContainer src volumes]
          exact hq2
        · simp [ctxPreInitImagePullPolicy, hempty, heq2, hpol]
    · by_cases hpol0 : tc.container.imagePullPolicy = ""
      · rcases groupPreInitImagePullPolicy_spec gc with ⟨hempty2, _⟩ | ⟨tc2, htc2, hq2, heq2⟩
        · left
          simp [ctxPreInitImagePullPolicy, heq, hpol0, hempty2]
        · right
          obtain ⟨src, hsrc, hrfl⟩ := hmemgc tc2 htc2
          subst hrfl
          have hpol2 : (newTaskContainer src volumes).container.imagePullPolicy =
              src.imagePullPolicy := by
            simp [newTaskContainer]
          refine ⟨src, List.mem_append_right _ hsrc, ?_, ?_⟩
          · rw [← hasTestVolumeMount_newTaskContainer src volumes]
            exact hq2
          · simp [ctxPreInitImagePullPolicy, heq, hpol0, heq2, hpol2]
      · right
        obtain ⟨src, hsrc, hrfl⟩ := hmemgi tc htc
        subst hrfl
        have hpol2 : (newTaskContainer src volumes).container.imagePullPolicy =
            src.imagePullPolicy := by
          simp [newTaskContainer]
        have hpol0' : src.imagePullPolicy ≠ "" := by
          rw [hpol2] at hpol0
          exact hpol0
        refine ⟨src, List.mem_append_left _ hsrc, ?_, ?_⟩
        · rw [← hasTestVolumeMount_newTaskContainer src volumes]
          exact hq
        · simp [ctxPreInitImagePullPolicy, heq, hpol2, hpol0']
  · intro hex hall
    obtain ⟨c0, hc0, hq0⟩ := hex
    have h0 : newTaskContainer c0 volumes ∈ gi := hgiex c0 hc0
    rcases groupPreInitImage_spec gi with ⟨_, hnone⟩ | ⟨tc, htc, hq, heq⟩
    · exfalso
      have hcontra := hnone _ h0
      rw [hasTestVolumeMount_newTaskContainer, hq0] at hcontra
      simp at hcontra
    · obtain ⟨src, hsrc, hrfl⟩ := hmemgi tc htc
      subst hrfl
      have hqs : hasSpecialMountB volumes src = true := by
        rw [← hasTestVolumeMount_newTaskContainer src volumes]
        exact hq
      have himg2 : (newTaskContainer src volumes).container.image = src.image := by
        simp [newTaskContainer]
      have hne : src.image ≠ "" := hall src hsrc hqs
      refine ⟨src, hsrc, hqs, ?_⟩
      simp [ctxPreInitImage, heq, himg2, hne]
  · intro hex hall
    obtain ⟨c0, hc0, hq0⟩ := hex
    have h0 : newTaskContainer c0 volumes ∈ gi := hgiex c0 hc0
    rcases groupPreInitImagePullPolicy_spec gi with ⟨_, hnone⟩ | ⟨tc, htc, hq, heq⟩
    · exfalso
      have hcontra := hnone _ h0
      rw [hasTestVolumeMount_newTaskContainer, hq0] at hcontra
      simp at hcontra
    · obtain ⟨src, hsrc, hrfl⟩ := hmemgi tc htc
      subst hrfl
      have hqs : hasSpecialMountB volumes src = true := by
        rw [← hasTestVolumeMount_newTaskContainer src volumes]
        exact hq
      have hpol2 : (newTaskContainer src volumes).container.imagePullPolicy =
          src.imagePullPolicy := by
        simp [newTaskContainer]
      have hne : src.imagePullPolicy ≠ "" := hall src hsrc hqs
      refine ⟨src, hsrc, hqs, ?_⟩
      simp [ctxPreInitImagePullPolicy, heq, hpol2, hne]

/-- Witness for C5 at a concrete pod: one init container `init`
(image `init-img`, pull policy `Always`) mounting a Repo volume, one
plain main container, and a zero-valued finalizer, with the groups
enumerated in the canonical order. -/
theorem taskBuilder_preInit_spec_witness :
    needsToPreInit
      ⟨newTaskContainerGroup
          [{ name := "init", image := "init-img", imagePullPolicy := "Always",
             volumeMounts := [{ name := "repo-volume", mountPath := "/work" }] }]
          [{ name := "repo-volume", source := TestJobVolumeSource.repo "repo" }],
        newTaskContainerGroup [{ name := "main", image := "main-img" }]
          [{ name := "repo-volume", source := TestJobVolumeSource.repo "repo" }],
        newTaskContainerGroup [({} : Container)]
          [{ name := "repo-volume", source := TestJobVolumeSource.repo "repo" }]⟩ = true ∧
    ∃ c ∈ keepLastByName
        [{ name := "init", image := "init-img", imagePullPolicy := "Always",
           volumeMounts := [{ name := "repo-volume", mountPath := "/work" }] }],
      hasSpecialMountB
        [{ name := "repo-volume", source := TestJobVolumeSource.repo "repo" }] c = true ∧
      ctxPreInitImage
        ⟨newTaskContainerGroup
            [{ name := "init", image := "init-img", imagePullPolicy := "Always",
               volumeMounts := [{ name := "repo-volume", mountPath := "/work" }] }]
            [{ name := "repo-volume", source := TestJobVolumeSource.repo "repo" }],
          newTaskContainerGroup [{ name := "main", image := "main-img" }]
            [{ name := "repo-volume", source := TestJobVolumeSource.repo "repo" }],
          newTaskContainerGroup [({} : Container)]
            [{ name := "repo-volume", source := TestJobVolumeSource.repo "repo" }]⟩ =
        c.image := by
  have h := taskBuilder_preInit_spec
    [{ name := "init", image := "init-img", imagePullPolicy := "Always",
       volumeMounts := [{ name := "repo-volume", mountPath := "/work" }] }]
    [{ name := "main", image := "main-img" }] {}
    [{ name := "repo-volume", source := TestJobVolumeSource.repo "repo" }]
    _ _ _ (List.Perm.refl _) (List.Perm.refl _) (List.Perm.refl _)
  exact ⟨h.1.mpr (by decide), h.2.2.2.2.1 (by decide) (by decide)⟩

/-! ## C6: TaskBuilder.addContainersByStrategyKey (task_builder.go lines 340-362) -/

/-- Models the fields of `StrategyKey` read by the builder
(part_000 lines 27-33; the scheduler handle and callback are not data). -/
structure StrategyKey where
  concurrentIdx : Int
  keys : List String
  env : String

/-- Embeds `TaskBuilder.addContainersByStrategyKey` (task_builder.go
lines 340-362): with a strategy key, clone the main container once per
key — clone `idx` is named `name + Sprintf("%d-%d", concurrentIdx, idx)`
and gets the extra env var `Env = key` — keep every pod container whose
name differs from the main container's, and append the clones. -/
def addContainersByStrategyKey (podContainers : List Container)
    (mainContainer : Container) (strategyKey : Option StrategyKey) : List Container :=
  match strategyKey with
  | none => podContainers
  | some sk =>
    let containers := sk.keys.enum.map fun p =>
      { mainContainer with
        name := mainContainer.name ++ toString sk.concurrentIdx ++ "-" ++ toString p.1,
        env := mainContainer.env ++ [{ name := sk.env, value := p.2 }] }
    let sideCarContainers := podContainers.filter fun c => !(c.name == mainContainer.name)
    sideCarContainers ++ containers

/-- C6: with strategy key `sk` attached, the built container list is the
non-main pod containers in order followed by one clone per key, clone
`j` named `<origName><concurrentIdx>-<j>` with exactly the one extra env
var `sk.env = sk.keys[j]`; no container named like the original main
container remains. -/
theorem taskBuilder_addContainersByStrategyKey_spec (podContainers : List Container)
    (mainContainer : Container) (sk : StrategyKey) :
    (addContainersByStrategyKey podContainers mainContainer (some sk)).length =
      (podContainers.filter fun c => !(c.name == mainContainer.name)).length +
        sk.keys.length ∧
    (addContainersByStrategyKey podContainers mainContainer (some sk)).take
        (podContainers.filter fun c => !(c.name == mainContainer.name)).length =
      (podContainers.filter fun c => !(c.name == mainContainer.name)) ∧
    (∀ (j : Nat) (k : String), sk.keys[j]? = some k →
      ((addContainersByStrategyKey podContainers mainContainer (some sk)).drop
          (podContainers.filter fun c => !(c.name == mainContainer.name)).length)[j]? =
        some { mainContainer with
          name := mainContainer.name ++ toString sk.concurrentIdx ++ "-" ++ toString j,
          env := mainContainer.env ++ [{ name := sk.env, value := k }] }) ∧
    (∀ c ∈ addContainersByStrategyKey podContainers mainContainer (some sk),
      c.name ≠ mainContainer.name) := by
  have hres : addContainersByStrategyKey podContainers mainContainer (some sk) =
      (podContainers.filter fun c => !(c.name == mainContainer.name)) ++
        (sk.keys.enum.map fun p =>
          { mainContainer with
            name := mainContainer.name ++ toString sk.concurrentIdx ++ "-" ++ toString p.1,
            env := mainContainer.env ++ [{ name := sk.env, value := p.2 }] }) := rfl
  refine ⟨?_, ?_, ?_, ?_⟩
  · rw [hres, List.length_append, List.length_map]
    simp [List.enum]
  · rw [hres, List.take_left]
  · intro j k hk
    rw [hres, List.drop_left, List.getElem?_map]
    simp [List.enum, List.getElem?_enumFrom, hk]
  · intro c hc
    rw [hres] at hc
    rcases List.mem_append.mp hc with hmem | hmem
    · rcases List.mem_filter.mp hmem with ⟨_, hname⟩
      intro heq
      rw [heq] at hname
      simp at hname
    · rcases List.mem_map.mp hmem with ⟨p, _, hp⟩
      intro heq
      rw [← hp] at heq
      have hlen := congrArg String.length heq
      simp only [String.length_append] at hlen
      have : ("-" : String).length = 1 := rfl
      omega

/-- Witness for C6: main container `test` with keys `["k1", "k2"]`,
concurrent index `0`, env `TEST`, and one sidecar. -/
theorem taskBuilder_addContainersByStrategyKey_spec_witness :
    ((addContainersByStrategyKey
        [{ name := "test", image := "alpine" }, { name := "sidecar" }]
        { name := "test", image := "alpine" }
        (some { concurrentIdx := 0, keys := ["k1", "k2"], env := "TEST" })).drop 1)[0]? =
      some { name := "test0-0", image := "alpine",
             env := [{ name := "TEST", value := "k1" }] } := by
  have h := taskBuilder_addContainersByStrategyKey_spec
    [{ name := "test", image := "alpine" }, { name := "sidecar" }]
    { name := "test", image := "alpine" }
    { concurrentIdx := 0, keys := ["k1", "k2"], env := "TEST" }
  have h3 := h.2.2.1 0 "k1" rfl
  exact h3

/-! ## C7: repository mount indirection
(task_builder.go lines 199-227 and 912-1035) -/

/-- The per-mount rewrite that `newTaskContainer` applies to
`c.VolumeMounts[idx].MountPath` (the mount's name is kept). -/
def rewriteMount (volumes : List TestJobVolume) (vm : VolumeMount) : VolumeMount :=
  let volume := (lookupVolume volumes vm.name).getD zeroVolume
  match volume.source with
  | TestJobVolumeSource.repo _ =>
    { name := vm.name, mountPath := "/tmp/repo-archive/" ++ volume.name }
  | TestJobVolumeSource.artifact _ =>
    { name := vm.name, mountPath := "/tmp/artifact-archive/" ++ volume.name }
  | TestJobVolumeSource.token _ =>
    { name := vm.name, mountPath := "/tmp/token/" ++ volume.name }
  | TestJobVolumeSource.log => { name := vm.name, mountPath := "/tmp/log" }
  | TestJobVolumeSource.report => { name := vm.name, mountPath := "/tmp/report" }
  | TestJobVolumeSource.raw _ => vm

/-- The name under which a mount's volume lands in `podSpecVolumeMap`. -/
def mountVolumeName (volumes : List TestJobVolume) (vm : VolumeMount) : String :=
  ((lookupVolume volumes vm.name).getD zeroVolume).name

/-- The `corev1.Volume` that a mount contributes to `podSpecVolumeMap`. -/
def podVolumeFor (volumes : List TestJobVolume) (vm : VolumeMount) : PodVolume :=
  let volume := (lookupVolume volumes vm.name).getD zeroVolume
  match volume.source with
  | TestJobVolumeSource.raw tag => { name := volume.name, source := PodVolumeSource.raw tag }
  | _ => { name := volume.name, source := PodVolumeSource.emptyDir }

/-- Embeds `TaskBuilder.mountRepository` (task_builder.go lines
199-227): for each repository in `repoNameToArchiveMountPath` (in map
order), look up the original mount path, failing when absent, and run
the `rm -rf … && mkdir -p … && tar -zxvf …/repo.tar.gz -C …` shell
pre-command through `PrepareCommand`; the produced command lines are
collected in order. -/
def mountRepositoryCmds : List (String × String) → List (String × String) →
    Except String (List (List String))
  | [], _ => Except.ok []
  | (repoName, archivePath) :: rest, orgMap =>
    match alistLookup orgMap repoName with
    | none => Except.error ("kubetest: failed to find org mount path by " ++ repoName)
    | some orgMountPath =>
      match mountRepositoryCmds rest orgMap with
      | Except.error e => Except.error e
      | Except.ok cmds =>
        Except.ok ((["rm", "-rf", orgMountPath, "&&", "mkdir", "-p", orgMountPath,
          "&&", "tar", "-zxvf", archivePath ++ "/repo.tar.gz", "-C", orgMountPath]) :: cmds)

/-- `mountRepository` applied to a task container's two repo maps. -/
def taskBuilderMountRepository (tc : TaskContainer) : Except String (List (List String)) :=
  mountRepositoryCmds tc.repoNameToArchiveMountPath tc.repoNameToOrgMountPath

theorem lookupVolume_name (volumes : List TestJobVolume) (n : String)
    (vol : TestJobVolume) (h : lookupVolume volumes n = some vol) : vol.name = n := by
  have := List.find?_some h
  simpa using this

theorem alistLookup_isSome_of_mem {α : Type} (m : List (String × α)) (p : String × α)
    (hp : p ∈ m) : (alistLookup m p.1).isSome = true := by
  rw [alistLookup]
  rcases hfind : m.reverse.find? (fun q => q.1 == p.1) with _ | q
  · exfalso
    rw [List.find?_eq_none] at hfind
    have hcontra := hfind p (List.mem_reverse.mpr hp)
    simp at hcontra
  · rw [hfind]
    rfl

theorem alistLookup_eq_of_all {α : Type} (m : List (String × α)) (k : String) (v : α)
    (hall : ∀ p ∈ m, p.1 = k → p.2 = v) (hex : ∃ p ∈ m, p.1 = k) :
    alistLookup m k = some v := by
  rw [alistLookup]
  rcases hfind : m.reverse.find? (fun q => q.1 == k) with _ | q
  · exfalso
    rw [List.find?_eq_none] at hfind
    obtain ⟨p, hp, hpk⟩ := hex
    have hcontra := hfind p (List.mem_reverse.mpr hp)
    simp [hpk] at hcontra
  · have hq1 : q.1 = k := by simpa using List.find?_some hfind
    have hqm : q ∈ m := List.mem_reverse.mp (List.mem_of_find?_eq_some hfind)
    rw [hfind]
    have hqv : q.2 = v := hall q hqm hq1
    simp [hqv]

theorem processMounts_mounts_eq (volumes : List TestJobVolume) (mounts : List VolumeMount) :
    (processMounts volumes mounts).mounts = mounts.map (rewriteMount volumes) := by
  induction mounts with
  | nil => rfl
  | cons vm rest ih =>
    rcases hl : lookupVolume volumes vm.name with _ | vol
    · simp [processMounts, rewriteMount, hl, zeroVolume, ih]
    · cases hsrc : vol.source <;> simp [processMounts, rewriteMount, hl, hsrc, ih]

theorem repoArchive_entries (volumes : List TestJobVolume) (mounts : List VolumeMount) :
    ∀ p ∈ (processMounts volumes mounts).repoArchive,
      ∃ vm ∈ mounts, ∃ vol, lookupVolume volumes vm.name = some vol ∧
        vol.source = TestJobVolumeSource.repo p.1 ∧
        p.2 = "/tmp/repo-archive/" ++ vol.name := by
  induction mounts with
  | nil => intro p hp; simp [processMounts] at hp
  | cons vm rest ih =>
    intro p hp
    rcases hl : lookupVolume volumes vm.name with _ | vol
    · have hp' : p ∈ (processMounts volumes rest).repoArchive := by
        simpa [processMounts, hl, zeroVolume] using hp
      obtain ⟨vm', hvm', hrest⟩ := ih p hp'
      exact ⟨vm', List.mem_cons_of_mem _ hvm', hrest⟩
    · cases hsrc : vol.source with
      | repo r =>
        have hp' : p = (r, "/tmp/repo-archive/" ++ vol.name) ∨
            p ∈ (processMounts volumes rest).repoArchive := by
          simpa [processMounts, hl, hsrc] using hp
        rcases hp' with rfl | hp'
        · exact ⟨vm, List.mem_cons_self _ _, vol, hl, by rw [hsrc], rfl⟩
        · obtain ⟨vm', hvm', hrest⟩ := ih p hp'
          exact ⟨vm', List.mem_cons_of_mem _ hvm', hrest⟩
      | token t =>
        have hp' : p ∈ (processMounts volumes rest).repoArchive := by
          simpa [processMounts, hl, hsrc] using hp
        obtain ⟨vm', hvm', hrest⟩ := ih p hp'
        exact ⟨vm', List.mem_cons_of_mem _ hvm', hrest⟩
      | artifact a =>
        have hp' : p ∈ (processMounts volumes rest).repoArchive := by
          simpa [processMounts, hl, hsrc] using hp
        obtain ⟨vm', hvm', hrest⟩ := ih p hp'
        exact ⟨vm', List.mem_cons_of_mem _ hvm', hrest⟩
      | log =>
        have hp' : p ∈ (processMounts volumes rest).repoArchive := by
          simpa [processMounts, hl, hsrc] using hp
        obtain ⟨vm', hvm', hrest⟩ := ih p hp'
        exact ⟨vm', List.mem_cons_of_mem _ hvm', hrest⟩
      | report =>
        have hp' : p ∈ (processMounts volumes rest).repoArchive := by
          simpa [processMounts, hl, hsrc] using hp
        obtain ⟨vm', hvm', hrest⟩ := ih p hp'
        exact ⟨vm', List.mem_cons_of_mem _ hvm', hrest⟩
      | raw tag =>
        have hp' : p ∈ (processMounts volumes rest).repoArchive := by
          simpa [processMounts, hl, hsrc] using hp
        obtain ⟨vm', hvm', hrest⟩ := ih p hp'
        exact ⟨vm', List.mem_cons_of_mem _ hvm', hrest⟩

theorem repoOrg_entries (volumes : List TestJobVolume) (mounts : List VolumeMount) :
    ∀ p ∈ (processMounts volumes mounts).repoOrg,
      ∃ vm ∈ mounts, ∃ vol, lookupVolume volumes vm.name = some vol ∧
        vol.source = TestJobVolumeSource.repo p.1 ∧
        p.2 = vm.mountPath := by
  induction mounts with
  | nil => intro p hp; simp [processMounts] at hp
  | cons vm rest ih =>
    intro p hp
    rcases hl : lookupVolume volumes vm.name with _ | vol
    · have hp' : p ∈ (processMounts volumes rest).repoOrg := by
        simpa [processMounts, hl, zeroVolume] using hp
      obtain ⟨vm', hvm', hrest⟩ := ih p hp'
      exact ⟨vm', List.mem_cons_of_mem _ hvm', hrest⟩
    · cases hsrc : vol.source with
      | repo r =>
        have hp' : p = (r, vm.mountPath) ∨
            p ∈ (processMounts volumes rest).repoOrg := by
          simpa [processMounts, hl, hsrc] using hp
        rcases hp' with rfl | hp'
        · exact ⟨vm, List.mem_cons_self _ _, vol, hl, by rw [hsrc], rfl⟩
        · obtain ⟨vm', hvm', hrest⟩ := ih p hp'
          exact ⟨vm', List.mem_cons_of_mem _ hvm', hrest⟩
      | token t =>
        have hp' : p ∈ (processMounts volumes rest).repoOrg := by
          simpa [processMounts, hl, hsrc] using hp
        obtain ⟨vm', hvm', hrest⟩ := ih p hp'
        exact ⟨vm', List.mem_cons_of_mem _ hvm', hrest⟩
      | artifact a =>
        have hp' : p ∈ (processMounts volumes rest).repoOrg := by
          simpa [processMounts, hl, hsrc] using hp
        obtain ⟨vm', hvm', hrest⟩ := ih p hp'
        exact ⟨vm', List.mem_cons_of_mem _ hvm', hrest⟩
      | log =>
        have hp' : p ∈ (processMounts volumes rest).repoOrg := by
          simpa [processMounts, hl, hsrc] using hp
        obtain ⟨vm', hvm', hrest⟩ := ih p hp'
        exact ⟨vm', List.mem_cons_of_mem _ hvm', hrest⟩
      | report =>
        have hp' : p ∈ (processMounts volumes rest).repoOrg := by
          simpa [processMounts, hl, hsrc] using hp
        obtain ⟨vm', hvm', hrest⟩ := ih p hp'
        exact ⟨vm', List.mem_cons_of_mem _ hvm', hrest⟩
      | raw tag =>
        have hp' : p ∈ (processMounts volumes rest).repoOrg := by
          simpa [processMounts, hl, hsrc] using hp
        obtain ⟨vm', hvm', hrest⟩ := ih p hp'
        exact ⟨vm', List.mem_cons_of_mem _ hvm', hrest⟩

theorem repo_maps_mem_of_mount (volumes : List TestJobVolume) (mounts : List VolumeMount)
    (vm : VolumeMount) (vol : TestJobVolume) (r : String) (hvm : vm ∈ mounts)
    (hl : lookupVolume volumes vm.name = some vol)
    (hsrc : vol.source = TestJobVolumeSource.repo r) :
    (r, "/tmp/repo-archive/" ++ vol.name) ∈ (processMounts volumes mounts).repoArchive ∧
    (r, vm.mountPath) ∈ (processMounts volumes mounts).repoOrg := by
  induction mounts with
  | nil => simp at hvm
  | cons hd rest ih =>
    rcases List.mem_cons.mp hvm with rfl | hmem
    · constructor <;> simp [processMounts, hl, hsrc]
    · have hrest := ih hmem
      rcases hl2 : lookupVolume volumes hd.name with _ | vol2
      · constructor <;> simp [processMounts, hl2, zeroVolume] <;> tauto
      · cases hsrc2 : vol2.source <;> constructor <;>
          simp [processMounts, hl2, hsrc2] <;> tauto

theorem podVolumes_entries_char (volumes : List TestJobVolume) (mounts : List VolumeMount) :
    ∀ p ∈ (processMounts volumes mounts).podVolumes,
      ∃ vm ∈ mounts, p = (mountVolumeName volumes vm, podVolumeFor volumes vm) := by
  induction mounts with
  | nil => intro p hp; simp [processMounts] at hp
  | cons vm rest ih =>
    intro p hp
    have hstep : p = (mountVolumeName volumes vm, podVolumeFor volumes vm) ∨
        p ∈ (processMounts volumes rest).podVolumes := by
      rcases hl : lookupVolume volumes vm.name with _ | vol
      · simpa [processMounts, mountVolumeName, podVolumeFor, hl, zeroVolume] using hp
      · cases hsrc : vol.source <;>
          simpa [processMounts, mountVolumeName, podVolumeFor, hl, hsrc] using hp
    rcases hstep with rfl | hp'
    · exact ⟨vm, List.mem_cons_self _ _, rfl⟩
    · obtain ⟨vm', hvm', hrest⟩ := ih p hp'
      exact ⟨vm', List.mem_cons_of_mem _ hvm', hrest⟩

theorem podVolumes_mem_of_mount (volumes : List TestJobVolume) (mounts : List VolumeMount)
    (vm : VolumeMount) (hvm : vm ∈ mounts) :
    (mountVolumeName volumes vm, podVolumeFor volumes vm) ∈
      (processMounts volumes mounts).podVolumes := by
  induction mounts with
  | nil => simp at hvm
  | cons hd rest ih =>
    rcases List.mem_cons.mp hvm with rfl | hmem
    · rcases hl : lookupVolume volumes vm.name with _ | vol
      · simp [processMounts, mountVolumeName, podVolumeFor, hl, zeroVolume]
      · cases hsrc : vol.source <;>
          simp [processMounts, mountVolumeName, podVolumeFor, hl, hsrc]
    · have hrest := ih hmem
      rcases hl2 : lookupVolume volumes hd.name with _ | vol2
      · simp [processMounts, hl2, zeroVolume]
        tauto
      · cases hsrc2 : vol2.source <;> simp [processMounts, hl2, hsrc2] <;> tauto

theorem mountRepositoryCmds_ok (orgMap : List (String × String)) :
    ∀ entries : List (String × String),
      (∀ p ∈ entries, (alistLookup orgMap p.1).isSome = true) →
      ∃ cmds, mountRepositoryCmds entries orgMap = Except.ok cmds ∧
        ∀ p ∈ entries, ∀ o, alistLookup orgMap p.1 = some o →
          (["rm", "-rf", o, "&&", "mkdir", "-p", o, "&&", "tar", "-zxvf",
            p.2 ++ "/repo.tar.gz", "-C", o]) ∈ cmds := by
  intro entries
  induction entries with
  | nil =>
    intro _
    exact ⟨[], rfl, by simp⟩
  | cons e rest ih =>
    intro hall
    obtain ⟨cmds, hok, hmem⟩ := ih fun p hp => hall p (List.mem_cons_of_mem _ hp)
    have hsome := hall e (List.mem_cons_self _ _)
    rcases ho : alistLookup orgMap e.1 with _ | o
    · rw [ho] at hsome
      simp at hsome
    · rcases e with ⟨rn, ap⟩
      refine ⟨(["rm", "-rf", o, "&&", "mkdir", "-p", o, "&&", "tar", "-zxvf",
          ap ++ "/repo.tar.gz", "-C", o]) :: cmds, ?_, ?_⟩
      · rw [mountRepositoryCmds]
        rw [show alistLookup orgMap rn = some o from ho, hok]
      · intro p hp o2 ho2
        rcases List.mem_cons.mp hp with rfl | hp'
        · rw [show alistLookup orgMap (rn, ap).1 = some o from ho] at ho2
          injection ho2 with hoo
          subst hoo
          exact List.mem_cons_self _ _
        · exact List.mem_cons_of_mem _ (hmem p hp' o2 ho2)

/-- C7: a user container mount at path `P` on a Repo volume `V` is
rewritten in the pod spec to the staging path `/tmp/repo-archive/V`, the
volume `V` becomes an emptyDir volume, and the pre-command issued
through `PrepareCommand` for that repository is exactly
`rm -rf P && mkdir -p P && tar -zxvf /tmp/repo-archive/V/repo.tar.gz -C P`.
The hypotheses: the mount sits at index `i`, volume `V` (nonempty name)
resolves to the Repo source `R`, and no other mount of this container
resolves to the same repository name (Go's repo-name-keyed maps would
otherwise overwrite). -/
theorem taskBuilder_mountRepository_spec (c : Container) (volumes : List TestJobVolume)
    (V P R : String) (i : Nat)
    (hV : V ≠ "")
    (hmount : c.volumeMounts[i]? = some { name := V, mountPath := P })
    (hlook : lookupVolume volumes V = some { name := V, source := TestJobVolumeSource.repo R })
    (huniq : ∀ vm ∈ c.volumeMounts, ∀ vol, lookupVolume volumes vm.name = some vol →
      vol.source = TestJobVolumeSource.repo R → vm = { name := V, mountPath := P }) :
    (newTaskContainer c volumes).container.volumeMounts[i]? =
      some { name := V, mountPath := "/tmp/repo-archive/" ++ V } ∧
    alistLookup (newTaskContainer c volumes).podSpecVolumeMap V =
      some { name := V, source := PodVolumeSource.emptyDir } ∧
    ∃ cmds, taskBuilderMountRepository (newTaskContainer c volumes) = Except.ok cmds ∧
      (["rm", "-rf", P, "&&", "mkdir", "-p", P, "&&", "tar", "-zxvf",
        "/tmp/repo-archive/" ++ (V ++ "/repo.tar.gz"), "-C", P]) ∈ cmds := by
  have hvmmem : ({ name := V, mountPath := P } : VolumeMount) ∈ c.volumeMounts :=
    List.getElem?_mem hmount
  refine ⟨?_, ?_, ?_⟩
  · show (processMounts volumes c.volumeMounts).mounts[i]? = _
    rw [processMounts_mounts_eq, List.getElem?_map, hmount]
    simp [rewriteMount, hlook]
  · show alistLookup (processMounts volumes c.volumeMounts).podVolumes V = _
    refine alistLookup_eq_of_all _ _ _ ?_ ?_
    · intro p hp hkey
      obtain ⟨vm', hvm', hform⟩ := podVolumes_entries_char volumes c.volumeMounts p hp
      subst hform
      simp only at hkey
      rcases hl2 : lookupVolume volumes vm'.name with _ | vol2
      · rw [mountVolumeName, hl2] at hkey
        exact absurd hkey.symm hV
      · have hname2 : vol2.name = vm'.name := lookupVolume_name _ _ _ hl2
        have hkey2 : vol2.name = V := by
          rw [mountVolumeName, hl2] at hkey
          simpa using hkey
        have hvmname : vm'.name = V := by rw [← hname2, hkey2]
        have hl3 : lookupVolume volumes vm'.name =
            some { name := V, source := TestJobVolumeSource.repo R } := by
          rw [hvmname, hlook]
        show podVolumeFor volumes vm' = _
        simp [podVolumeFor, hl3]
    · refine ⟨(mountVolumeName volumes { name := V, mountPath := P },
        podVolumeFor volumes { name := V, mountPath := P }), ?_, ?_⟩
      · exact podVolumes_mem_of_mount volumes c.volumeMounts _ hvmmem
      · rw [mountVolumeName]
        simp [hlook]
  · have hallsome : ∀ p ∈ (processMounts volumes c.volumeMounts).repoArchive,
        (alistLookup (processMounts volumes c.volumeMounts).repoOrg p.1).isSome = true := by
      intro p hp
      obtain ⟨vm', hvm', vol', hl', hsrc', _⟩ :=
        repoArchive_entries volumes c.volumeMounts p hp
      have hmem := (repo_maps_mem_of_mount volumes c.volumeMounts vm' vol' p.1
        hvm' hl' hsrc').2
      exact alistLookup_isSome_of_mem _ (p.1, vm'.mountPath) hmem
    obtain ⟨cmds, hok, hcmd⟩ := mountRepositoryCmds_ok
      (processMounts volumes c.volumeMounts).repoOrg
      (processMounts volumes c.volumeMounts).repoArchive hallsome
    refine ⟨cmds, hok, ?_⟩
    have harch : (R, "/tmp/repo-archive/" ++ V) ∈
        (processMounts volumes c.volumeMounts).repoArchive := by
      have hmem := (repo_maps_mem_of_mount volumes c.volumeMounts
        { name := V, mountPath := P }
        { name := V, source := TestJobVolumeSource.repo R } R hvmmem hlook rfl).1
      simpa using hmem
    have horg : alistLookup (processMounts volumes c.volumeMounts).repoOrg R = some P := by
      refine alistLookup_eq_of_all _ _ _ ?_ ?_
      · intro p hp hkey
        obtain ⟨vm', hvm', vol', hl', hsrc', hval⟩ :=
          repoOrg_entries volumes c.volumeMounts p hp
        rw [hkey] at hsrc'
        have := huniq vm' hvm' vol' hl' hsrc'
        rw [hval, this]
      · refine ⟨(R, P), ?_, rfl⟩
        have hmem := (repo_maps_mem_of_mount volumes c.volumeMounts
          { name := V, mountPath := P }
          { name := V, source := TestJobVolumeSource.repo R } R hvmmem hlook rfl).2
        simpa using hmem
    have := hcmd (R, "/tmp/repo-archive/" ++ V) harch P horg
    simpa [String.append_assoc] using this

/-- Witness for C7: one container mounting repo volume `repo-volume` at
`/work`. -/
theorem taskBuilder_mountRepository_spec_witness :
    (newTaskContainer
        { name := "test", volumeMounts := [{ name := "repo-volume", mountPath := "/work" }] }
        [{ name := "repo-volume", source := TestJobVolumeSource.repo "repo" }]
      ).container.volumeMounts[0]? =
      some { name := "repo-volume", mountPath := "/tmp/repo-archive/" ++ "repo-volume" } ∧
    ∃ cmds, taskBuilderMountRepository (newTaskContainer
        { name := "test", volumeMounts := [{ name := "repo-volume", mountPath := "/work" }] }
        [{ name := "repo-volume", source := TestJobVolumeSource.repo "repo" }]) =
      Except.ok cmds ∧
      (["rm", "-rf", "/work", "&&", "mkdir", "-p", "/work", "&&", "tar", "-zxvf",
        "/tmp/repo-archive/" ++ ("repo-volume" ++ "/repo.tar.gz"), "-C", "/work"]) ∈ cmds := by
  have h := taskBuilder_mountRepository_spec
    { name := "test", volumeMounts := [{ name := "repo-volume", mountPath := "/work" }] }
    [{ name := "repo-volume", source := TestJobVolumeSource.repo "repo" }]
    "repo-volume" "/work" "repo" 0 (by decide) (by decide) (by decide)
    (by
      intro vm hvm vol hl hsrc
      simp only [List.mem_singleton] at hvm
      exact hvm)
  exact ⟨h.1, h.2.2⟩

end Kubetest
